import Mathlib

/-!
Verification of the keirin prediction pipeline against its specification.

The development shallowly embeds the repository's code:
* `src/main.py` (command-line front end): the method-selector choices.
* `src/scrape/normalize.py`: row normalization and CSV-shaping helpers.
* `src/scrape/gamboo.py`: the chariloto day-page parser.
* The core engine modules (`model.py`, `bets.py`) are imported by
  `src/main.py` and its tests but their source is not in the repository
  snapshot; the corresponding definitions are modelled from the
  specification and are marked `Modelled from the spec:` in their
  doc comments.

Python dictionaries with string keys are embedded as association lists
`List (String × String)` with insertion-order-preserving update, matching
CPython dict semantics.  Possibly-`None` values are `Option String`.
Probabilities and stakes use `ℚ` so that every definition is executable.
-/

namespace Keirin

/-! ## Command-line method selector (`src/main.py`, `build_parser`)

`predict` and `today` subcommands declare
`add_argument("--ct", choices=["independent", "mc"], default="independent")`;
argparse rejects (fatally, via a parser error) any value outside `choices`.
-/

/-- The `choices` list of the `--ct` argument in `build_parser`
(`src/main.py` lines 138 and 168). -/
def ctChoices : List String := ["independent", "mc"]

/-- A supplied method name is accepted exactly when it is a member of
`ctChoices`; anything else makes argparse exit with a configuration
error. -/
def ctAccepts (method : String) : Bool := ctChoices.contains method

/-! ## Zone classifier (modelled from the spec)

`model.py` is absent from the repository snapshot; the classifier is
modelled from spec §4.2. -/

/-- A confidence zone for a race: `A`, `B`, `C`, or `nz` for the `none`
zone (race excluded from betting).
Modelled from the spec: `ZoneAssignment: race_id → one of A,B,C,none`. -/
inductive Zone where
  | A | B | C | nz
deriving DecidableEq, Repr

/-- Modelled from the spec: `ThresholdConfig`: a mapping from zone name
(`A`,`B`,`C`) to a minimum-probability cutoff. -/
structure ThresholdConfig where
  a : ℚ
  b : ℚ
  c : ℚ
deriving DecidableEq, Repr

/-- Modelled from the spec: evaluate cutoffs most-strict-first: compare the
race's representative confidence value against `A.min`, else `B.min`,
else `C.min`, else `none`. -/
def classifyZone (cfg : ThresholdConfig) (p : ℚ) : Zone :=
  if cfg.a ≤ p then Zone.A
  else if cfg.b ≤ p then Zone.B
  else if cfg.c ≤ p then Zone.C
  else Zone.nz

/-- Ordering of zones for the monotonicity property, `A > B > C > none`. -/
def zoneRank : Zone → Nat
  | Zone.A => 3
  | Zone.B => 2
  | Zone.C => 1
  | Zone.nz => 0

/-! ## Threshold configuration (modelled from the spec) -/

/-- Modelled from the spec: the built-in default cutoffs of
`ThresholdConfig` (the spec leaves the numeric defaults to the
implementation; representative non-increasing values are used). -/
def defaultThresholds : ThresholdConfig := ⟨4/5, 3/5, 2/5⟩

/-- Keys a user-supplied threshold mapping may mention. -/
def zoneKeys : List String := ["A", "B", "C"]

/-- First value bound to `k` in the user-supplied partial mapping. -/
def lookupKey (m : List (String × ℚ)) (k : String) : Option ℚ :=
  (m.find? (fun p => p.1 == k)).map (·.2)

/-- Modelled from the spec: overlay a user-supplied partial mapping onto the
built-in defaults; unspecified zones inherit defaults. -/
def overlayThresholds (m : List (String × ℚ)) : ThresholdConfig :=
  { a := (lookupKey m "A").getD defaultThresholds.a
    b := (lookupKey m "B").getD defaultThresholds.b
    c := (lookupKey m "C").getD defaultThresholds.c }

/-- Modelled from the spec: `config_thresholds` produces a complete
`ThresholdConfig` by overlaying any user-supplied partial mapping onto
built-in defaults, validating that every supplied key is one of
`A`,`B`,`C` and that values are non-increasing from A to C; otherwise it
is a fatal configuration error. -/
def config_thresholds (m : List (String × ℚ)) : Except String ThresholdConfig :=
  if m.all (fun p => zoneKeys.contains p.1) then
    if (overlayThresholds m).b ≤ (overlayThresholds m).a ∧
        (overlayThresholds m).c ≤ (overlayThresholds m).b then
      Except.ok (overlayThresholds m)
    else Except.error "thresholds must be non-increasing from A to C"
  else Except.error "unknown threshold key"

/-! ## Outcome probability engine, independent method (modelled from the
spec, §4.1)

`model.py` is absent from the repository snapshot.  A race's entrants are
indexed by `Fin n` (`n` = field size) and carry rational strengths. -/

/-- Modelled from the spec: the small positive epsilon degenerate strengths
are clipped to. -/
def epsVal : ℚ := 1 / 1000000

/-- Modelled from the spec: degenerate strengths (zero or negative) are
clipped to a small positive epsilon before normalizing so division is
always well defined. -/
def clipStrength (s : ℚ) : ℚ := if s ≤ 0 then epsVal else s

/-- The total strength of a race's entrants. -/
def strengthSum {n : ℕ} (w : Fin n → ℚ) : ℚ := ∑ i, w i

/-- Modelled from the spec: the sequential weighted-draw-without-replacement
(Plackett–Luce) probability that the ordered triple `(a, b, c)` occupies
the three leading positions. -/
def seqProb {n : ℕ} (w : Fin n → ℚ) (a b c : Fin n) : ℚ :=
  (w a / strengthSum w) * (w b / (strengthSum w - w a)) *
    (w c / (strengthSum w - w a - w b))

/-- Modelled from the spec: the independent method's exact top-3 probability
of entrant `i`: for `field_size < 3` it is defined as `1.0`; otherwise it
is the sum, over all ordered triples of distinct entrants that include
`i`, of the sequential-draw probability of that triple's order. -/
def top3Prob {n : ℕ} (w : Fin n → ℚ) (i : Fin n) : ℚ :=
  if n < 3 then 1
  else
    ∑ a, ∑ b ∈ ({a} : Finset (Fin n))ᶜ, ∑ c ∈ ({a, b} : Finset (Fin n))ᶜ,
      if i = a ∨ i = b ∨ i = c then seqProb w a b c else 0

/-! ## Ticket generator / bet allocator (modelled from the spec, §4.3)

`bets.py` is absent from the repository snapshot.  Predictions arrive as
per-race lists of (lane, top3_prob) records; stakes are naturals counted
in the allocation's smallest unit. -/

/-- One entrant's prediction record, `{lane_no, top3_prob}`. -/
structure LanePred where
  lane : ℕ
  prob : ℚ
deriving DecidableEq, Repr

/-- The prediction set of one race. -/
structure RacePred where
  race_id : String
  entries : List LanePred
deriving DecidableEq, Repr

/-- A ticket: a chosen ordered finish combination with its joint
probability under the engine's model. -/
structure Ticket where
  race_id : String
  a : ℕ
  b : ℕ
  c : ℕ
  prob : ℚ
deriving DecidableEq, Repr

/-- Modelled from the spec: a BetRow aggregates one race's tickets. -/
structure BetRow where
  race_id : String
  zone : String
  a : ℕ
  b : ℕ
  c : ℕ
  n_tickets : ℕ
  budget : ℕ
  allocation : List ((ℕ × ℕ × ℕ) × ℕ)
deriving DecidableEq, Repr

/-- The zone label used in rows and for `zone_filter` comparison. -/
def zoneName : Zone → String
  | Zone.A => "A"
  | Zone.B => "B"
  | Zone.C => "C"
  | Zone.nz => "none"

/-- Modelled from the spec: a race's representative confidence value, the
maximum `top3_prob` among its entrants. -/
def repProb (entries : List LanePred) : ℚ :=
  (entries.map (·.prob)).foldr max 0

/-- The total of a race's per-lane probabilities (the weight mass the
joint-probability term normalizes by). -/
def sumProbs (entries : List LanePred) : ℚ := (entries.map (·.prob)).sum

/-- Modelled from the spec: the joint probability of a specific 3-entrant
ordered combination, computed the same way as the independent method's
per-triple term. -/
def jointProb (entries : List LanePred) (a b c : LanePred) : ℚ :=
  (a.prob / sumProbs entries) * (b.prob / (sumProbs entries - a.prob)) *
    (c.prob / (sumProbs entries - a.prob - b.prob))

/-- All ways to pick one element of a list, with the remaining elements. -/
def picks {α : Type} : List α → List (α × List α)
  | [] => []
  | x :: xs => (x, xs) :: (picks xs).map (fun q => (q.1, x :: q.2))

/-- All ordered 3-entrant combinations of a race with their joint
probabilities. -/
def tripleCandidates (rid : String) (entries : List LanePred) : List Ticket :=
  ((picks entries).map (fun pa =>
    ((picks pa.2).map (fun pb =>
      pb.2.map (fun c =>
        { race_id := rid, a := pa.1.lane, b := pb.1.lane, c := c.lane,
          prob := jointProb entries pa.1 pb.1 c : Ticket }))).flatten)).flatten

/-- Ranking of candidate tickets: descending joint probability, ties broken
by ascending lane numbers for determinism. -/
def ticketOrd (t u : Ticket) : Bool :=
  if t.prob = u.prob then
    if t.a = u.a then
      (if t.b = u.b then decide (t.c ≤ u.c) else decide (t.b < u.b))
    else decide (t.a < u.a)
  else decide (u.prob < t.prob)

/-- Insert into a list sorted by `le` (stable insertion sort step). -/
def insertSorted {α : Type} (le : α → α → Bool) (x : α) : List α → List α
  | [] => [x]
  | y :: ys => if le x y then x :: y :: ys else y :: insertSorted le x ys

/-- Stable insertion sort by a boolean comparator. -/
def sortBy {α : Type} (le : α → α → Bool) : List α → List α
  | [] => []
  | x :: xs => insertSorted le x (sortBy le xs)

/-- Modelled from the spec: looser zones generate more hedging combinations
than tighter zones. -/
def zoneBaseCount : Zone → ℕ
  | Zone.A => 1
  | Zone.B => 2
  | Zone.C => 4
  | Zone.nz => 0

/-- Modelled from the spec: the tickets generated for one race: none when
its zone is `none` or fails `zone_filter`; otherwise the
highest-probability candidate combinations, capped at `max_points`. -/
def raceTickets (cfg : ThresholdConfig) (maxPoints : ℕ) (zoneFilter : String)
    (r : RacePred) : List Ticket :=
  if classifyZone cfg (repProb r.entries) = Zone.nz then []
  else if zoneFilter = "any" ∨
      zoneName (classifyZone cfg (repProb r.entries)) = zoneFilter then
    (sortBy ticketOrd (tripleCandidates r.race_id r.entries)).take
      (min (zoneBaseCount (classifyZone cfg (repProb r.entries))) maxPoints)
  else []

/-- One race's allocation plan: its id, zone label and generated tickets. -/
structure RacePlan where
  race_id : String
  zone : String
  tickets : List Ticket
deriving DecidableEq, Repr

/-- The plan of one race. -/
def planRace (cfg : ThresholdConfig) (maxPoints : ℕ) (zoneFilter : String)
    (r : RacePred) : RacePlan :=
  { race_id := r.race_id
    zone := zoneName (classifyZone cfg (repProb r.entries))
    tickets := raceTickets cfg maxPoints zoneFilter r }

/-- A stake floored to the allocation's smallest unit. -/
def floorStake (q : ℚ) : ℕ := (⌊q⌋).toNat

/-- Modelled from the spec: raw (pre-flooring) stakes: `flat` divides the
budget evenly across all tickets; `proportional` sizes each ticket
proportionally to its joint probability, normalized to the budget. -/
def rawStakes (B : ℕ) (policy : String) (probs : List ℚ) : List ℚ :=
  if policy = "flat" then probs.map (fun _ => (B : ℚ) / probs.length)
  else probs.map (fun p => (B : ℚ) * p / probs.sum)

/-- The index of the first highest-probability ticket. -/
def idxOfMax : List ℚ → ℕ
  | [] => 0
  | [_] => 0
  | p :: rest =>
    if p < rest.getD (idxOfMax rest) 0 then idxOfMax rest + 1 else 0

/-- The per-ticket stakes floored to the allocation's smallest unit. -/
def flooredStakes (B : ℕ) (policy : String) (probs : List ℚ) : List ℕ :=
  (rawStakes B policy probs).map floorStake

/-- Modelled from the spec: floor every raw stake to the smallest unit and
add the flooring remainder to the single highest-probability ticket. -/
def allocate (B : ℕ) (policy : String) (probs : List ℚ) : List ℕ :=
  if probs.isEmpty then []
  else
    (flooredStakes B policy probs).set (idxOfMax probs)
      ((flooredStakes B policy probs).getD (idxOfMax probs) 0 +
        (B - (flooredStakes B policy probs).sum))

/-- Build one BetRow per qualifying race, consuming the stake list in
ticket order. -/
def buildRows : List RacePlan → List ℕ → List BetRow
  | [], _ => []
  | pl :: rest, stakes =>
    { race_id := pl.race_id
      zone := pl.zone
      a := ((pl.tickets.head?).map (·.a)).getD 0
      b := ((pl.tickets.head?).map (·.b)).getD 0
      c := ((pl.tickets.head?).map (·.c)).getD 0
      n_tickets := pl.tickets.length
      budget := (stakes.take pl.tickets.length).sum
      allocation := (pl.tickets.map (fun t => (t.a, t.b, t.c))).zip
        (stakes.take pl.tickets.length) } ::
      buildRows rest (stakes.drop pl.tickets.length)

/-- The plans of the races that qualify (produce at least one ticket). -/
def qualifyingPlans (races : List RacePred) (cfg : ThresholdConfig)
    (maxPoints : ℕ) (zoneFilter : String) : List RacePlan :=
  (races.map (planRace cfg maxPoints zoneFilter)).filter
    (fun pl => !pl.tickets.isEmpty)

/-- Every ticket of the run, in race input order. -/
def runTickets (races : List RacePred) (cfg : ThresholdConfig)
    (maxPoints : ℕ) (zoneFilter : String) : List Ticket :=
  ((qualifyingPlans races cfg maxPoints zoneFilter).map (·.tickets)).flatten

/-- Modelled from the spec: `suggest_bets` turns predictions, thresholds, a
budget, a bet policy, a per-race ticket cap and a zone filter into
BetRows, allocating the budget over all qualifying races' tickets. -/
def suggest_bets (races : List RacePred) (cfg : ThresholdConfig) (B : ℕ)
    (policy : String) (maxPoints : ℕ) (zoneFilter : String) : List BetRow :=
  buildRows (qualifyingPlans races cfg maxPoints zoneFilter)
    (allocate B policy
      ((runTickets races cfg maxPoints zoneFilter).map (·.prob)))

/-- The total stake across a run's BetRows. -/
def totalStake (rows : List BetRow) : ℕ := (rows.map (·.budget)).sum

/-! ## Scraped-row normalization (`src/scrape/normalize.py`)

Python dicts are association lists with CPython semantics: assignment to
an existing key keeps its position, a new key is appended.  A scraped row
(`Dict[str, str]` whose values may be `None`) is a `Row`; a normalized
dict is a `Dict`. -/

/-- A scraped row: keys with possibly-`None` values. -/
abbrev Row : Type := List (String × Option String)

/-- A normalized Python dict with string values. -/
abbrev Dict : Type := List (String × String)

/-- Python dict assignment `d[k] = v`: replace in place, else append. -/
def alistSet {α : Type} (d : List (String × α)) (k : String) (v : α) :
    List (String × α) :=
  match d with
  | [] => [(k, v)]
  | p :: rest => if p.1 == k then (k, v) :: rest else p :: alistSet rest k v

/-- Python `d.get(k)`: first binding of `k` (keys are unique in dicts). -/
def alistGet? {α : Type} (d : List (String × α)) (k : String) : Option α :=
  match d with
  | [] => none
  | p :: rest => if p.1 == k then some p.2 else alistGet? rest k

/-- `optOr a b` is `a` unless it is `none`, in which case it is `b`. -/
def optOr {α : Type} (a b : Option α) : Option α :=
  match a with
  | some v => some v
  | none => b

/-- Python `d.get(k, dflt)` for string dicts. -/
def dictGetD (d : Dict) (k dflt : String) : String := (alistGet? d k).getD dflt

/-- Python `d.pop(k, None)` (the resulting dict). -/
def dictPop (d : Dict) (k : String) : Dict := d.filter (fun p => !(p.1 == k))

/-- Python `base.update(upd)` applied to a copy of `base`. -/
def dictUpdate (base upd : Dict) : Dict :=
  upd.foldl (fun acc p => alistSet acc p.1 p.2) base

/-- The keys of a dict, in order. -/
def dictKeys {α : Type} (d : List (String × α)) : List String := d.map Prod.fst

/-- Python `row.get(k)` on a scraped row: `none` when the key is missing or
its value is `None`. -/
def rowGet (r : Row) (k : String) : Option String :=
  match r with
  | [] => none
  | p :: rest => if p.1 == k then p.2 else rowGet rest k

/-- Python `str(x)` applied to `row.get(k)`: `str(None)` is `"None"`. -/
def pyStr (o : Option String) : String :=
  match o with
  | none => "None"
  | some s => s

/-- Python truthiness of an optional string: `None` and `""` are falsy. -/
def pyTruthy (o : Option String) : Bool :=
  match o with
  | none => false
  | some s => !(s == "")

/-- The value `key` ends up bound to when iterating a row's items and
skipping `None` values (the last non-`None` occurrence). -/
def suppliedVal (r : Row) (k : String) : Option String :=
  match r with
  | [] => none
  | p :: rest =>
    match suppliedVal rest k with
    | some v => some v
    | none => if p.1 == k then p.2 else none

/-- `ENTRY_DEFAULTS` of `src/scrape/normalize.py`. -/
def ENTRY_DEFAULTS : Dict :=
  [("race_id", ""), ("date", ""), ("race_no", ""), ("stadium", ""),
   ("track", ""), ("class", ""), ("grade", ""), ("lane_no", ""),
   ("rider_id", ""), ("rider_name", ""), ("score", ""), ("style", ""),
   ("backs", "0"), ("homes", "0"), ("starts", "0"), ("win_rate", "0"),
   ("quinella_rate", "0"), ("top3_rate", "0"), ("kimarite_nige", "0"),
   ("kimarite_makuri", "0"), ("kimarite_sashi", "0"), ("kimarite_mark", "0"),
   ("finish_pos", ""), ("age", ""), ("prefecture", ""), ("gear", ""),
   ("term", ""), ("line_id", ""), ("line_pos", ""), ("bank_code", ""),
   ("source", "")]

/-- `INFO_DEFAULTS` of `src/scrape/normalize.py`. -/
def INFO_DEFAULTS : Dict :=
  [("race_id", ""), ("date", ""), ("race_no", ""), ("stadium", ""),
   ("track", ""), ("title", ""), ("race_name", ""), ("grade", ""),
   ("start_time", ""), ("weather", ""), ("wind", ""), ("kaizai_no", ""),
   ("field_size", ""), ("line_count", ""), ("line_pattern", ""),
   ("bank_code", ""), ("source", "")]

/-- `TRAINING_COLUMNS_ORDER` of `src/scrape/normalize.py`. -/
def TRAINING_COLUMNS_ORDER : List String :=
  ["race_id", "date", "race_no", "stadium", "track", "title", "race_name",
   "grade", "class", "lane_no", "rider_id", "rider_name", "age",
   "prefecture", "score", "style", "backs", "homes", "starts", "win_rate",
   "quinella_rate", "top3_rate", "kimarite_nige", "kimarite_makuri",
   "kimarite_sashi", "kimarite_mark", "finish_pos", "line_id", "line_pos",
   "gear", "bank_code", "source", "field_size", "line_count", "line_pattern"]

/-- `CARDS_COLUMNS_ORDER = [col for col in TRAINING_COLUMNS_ORDER if col != "finish_pos"]`. -/
def CARDS_COLUMNS_ORDER : List String :=
  TRAINING_COLUMNS_ORDER.filter (fun col => !(col == "finish_pos"))

/-- `_normalize_row`: copy the defaults, then overwrite with every
non-`None` item of the row. -/
def normalize_row (row : Row) (defaults : Dict) : Dict :=
  row.foldl
    (fun acc p =>
      match p.2 with
      | none => acc
      | some v => alistSet acc p.1 v)
    defaults

/-- `_collect_headers`: the preferred order followed by every unseen key in
row-scan order. -/
def collect_headers (rows : List Dict) (base : List String) : List String :=
  rows.foldl
    (fun hs row =>
      row.foldl
        (fun hs p => if hs.contains p.1 then hs else hs ++ [p.1]) hs)
    base

/-- The card dict built from one entry row by `to_cards_csv`: normalize
against `ENTRY_DEFAULTS`, then `pop("finish_pos", None)`. -/
def cardRowOf (row : Row) : Dict :=
  dictPop (normalize_row row ENTRY_DEFAULTS) "finish_pos"

/-- The rows written by `to_cards_csv` (the CSV itself is I/O). -/
def cardRows (entryRows : List Row) : List Dict := entryRows.map cardRowOf

/-- The headers of the cards CSV written by `to_cards_csv`. -/
def cardHeaders (entryRows : List Row) : List String :=
  collect_headers (cardRows entryRows) CARDS_COLUMNS_ORDER

/-- The `info_map` built by `to_training_csv`: race-id (via `str`) to
normalized info row, later rows overwriting earlier ones. -/
def buildInfoMap (infoRows : List Row) : List (String × Dict) :=
  infoRows.foldl
    (fun m info =>
      alistSet m (pyStr (rowGet info "race_id")) (normalize_row info INFO_DEFAULTS))
    []

/-- `combined = dict(info_norm); combined.update(entry_norm)` for one entry
row of `to_training_csv`, with the info row looked up by race id. -/
def trainingCombine (infoMap : List (String × Dict)) (row : Row) : Dict :=
  dictUpdate ((alistGet? infoMap (pyStr (rowGet row "race_id"))).getD INFO_DEFAULTS)
    (normalize_row row ENTRY_DEFAULTS)

/-- `if not combined.get("track") and combined.get("stadium"):
combined["track"] = combined.get("stadium", "")`. -/
def trainingFixTrack (d : Dict) : Dict :=
  if !(pyTruthy (alistGet? d "track")) && pyTruthy (alistGet? d "stadium") then
    alistSet d "track" (dictGetD d "stadium" "")
  else d

/-- `if not combined.get("date"): combined["date"] = entry_norm.get("date", "")`. -/
def trainingFixDate (entryNorm d : Dict) : Dict :=
  if !(pyTruthy (alistGet? d "date")) then
    alistSet d "date" (dictGetD entryNorm "date" "")
  else d

/-- The enriched dict `to_training_csv` builds for one entry row: info
defaults (or the matching info row) updated with the normalized entry
row, then the `track`-from-`stadium` and `date` backfills. -/
def trainingRow (infoMap : List (String × Dict)) (row : Row) : Dict :=
  trainingFixDate (normalize_row row ENTRY_DEFAULTS)
    (trainingFixTrack (trainingCombine infoMap row))

/-- The rows written by `to_training_csv` (payout rows are unused by the
row construction). -/
def trainingRows (entryRows infoRows : List Row) : List Dict :=
  entryRows.map (trainingRow (buildInfoMap infoRows))

/-- A string parses as a plain non-negative decimal number: non-empty,
digits with at most one decimal point, at least one digit. -/
def isNumericString (s : String) : Bool :=
  !s.isEmpty &&
    s.toList.all (fun c => c.isDigit || c == '.') &&
    s.toList.any Char.isDigit &&
    (s.toList.filter (fun c => c == '.')).length ≤ 1

/-- A concrete scraped entry row that supplies no score. -/
def scorelessEntryRow : Row := [("race_id", some "r1"), ("lane_no", some "1")]

/-- A concrete entry row supplying an empty `track` and a `stadium`. -/
def trackEntryRow : Row :=
  [("race_id", some "r1"), ("track", some ""), ("stadium", some "S")]

/-- A concrete info row for the same race supplying a `track`. -/
def trackInfoRow : Row := [("race_id", some "r1"), ("track", some "T")]

/-- A concrete three-entrant race prediction with unit probabilities. -/
def exampleRace : RacePred := ⟨"r1", [⟨1, 1⟩, ⟨2, 1⟩, ⟨3, 1⟩]⟩

/-! ## Chariloto day-page parser (`src/scrape/gamboo.py`)

A pandas table produced by `pd.read_html` is modelled as its flattened
column labels plus rows of cells aligned with the columns; a `none` cell
is pandas `NaN`.  The HTML-level collaborator parts (`pd.read_html`
itself, the `<h1>` title/stadium extraction) are inputs to the model. -/

/-- A parsed HTML table: column labels and cell rows. -/
structure PTable where
  columns : List String
  rows : List (List (Option String))
deriving DecidableEq, Repr

/-- A chariloto line map: normalized lane → (line id, position in line). -/
abbrev LineMap : Type := List (String × (String × ℕ))

/-- `_flatten_columns` on already-stringified labels: strip each. -/
def flatten_columns (cols : List String) : List String :=
  cols.map (fun c => c.trim)

/-- Python `keyword in column` substring containment. -/
def strContains (s sub : String) : Bool :=
  if sub.isEmpty then true else decide (2 ≤ (s.splitOn sub).length)

/-- `row.get(col, ...)`: the cell under the first column matching `col`. -/
def rowCell (cols : List String) (row : List (Option String))
    (col : String) : Option String :=
  match List.findIdx? (fun c => c == col) cols with
  | none => none
  | some i => row.getD i none

/-- `_normalize_value`: `None`/NaN becomes `""`, else strip. -/
def normalize_value (v : Option String) : String := (v.getD "").trim

/-- The maximal digit runs of a string (`re.findall(r"\d+", s)`). -/
def digitRunsAux : List Char → List Char → List String
  | [], cur => if cur.isEmpty then [] else [String.mk cur.reverse]
  | ch :: rest, cur =>
    if ch.isDigit then digitRunsAux rest (ch :: cur)
    else if cur.isEmpty then digitRunsAux rest []
    else String.mk cur.reverse :: digitRunsAux rest []

/-- All maximal digit runs of a string, in order. -/
def digitRuns (s : String) : List String := digitRunsAux s.toList []

/-- `_normalize_lane`: the first digit run re-rendered through `int`,
else the stripped input. -/
def normalize_lane (s : String) : String :=
  match digitRuns s with
  | [] => s.trim
  | d :: _ => toString ((d.toNat?).getD 0)

/-- `_find_column`: the first column containing the first matching
keyword. -/
def find_column (columns : List String) : List String → Option String
  | [] => none
  | kw :: rest =>
    match columns.find? (fun c => strContains c kw) with
    | some c => some c
    | none => find_column columns rest

/-- Python `a or b` for strings. -/
def pyOr (a b : String) : String := if a = "" then b else a

/-- Python `s.isdigit()`. -/
def pyIsDigit (s : String) : Bool :=
  !s.isEmpty && s.toList.all Char.isDigit

/-- `_build_line_map`, one row: the normalized lanes named by the row. -/
def lineRowLanes (row : List (Option String)) : List String :=
  (digitRuns (String.intercalate " "
    ((row.map normalize_value).filter (fun v => !(v == ""))))).map
    normalize_lane

/-- `_build_line_map` loop: rows naming at least one lane get consecutive
line indices starting at 1. -/
def buildLineMapAux : List (List (Option String)) → ℕ → LineMap → LineMap
  | [], _, acc => acc
  | row :: rest, lineIndex, acc =>
    if ((row.map normalize_value).filter (fun v => !(v == ""))).isEmpty then
      buildLineMapAux rest lineIndex acc
    else
      match lineRowLanes row with
      | [] => buildLineMapAux rest lineIndex acc
      | [lane] =>
        buildLineMapAux rest (lineIndex + 1)
          (alistSet acc lane (toString lineIndex, 0))
      | lanes =>
        buildLineMapAux rest (lineIndex + 1)
          (lanes.enum.foldl
            (fun acc p => alistSet acc p.2 (toString lineIndex, p.1)) acc)

/-- `_build_line_map`. -/
def build_line_map (t : PTable) : LineMap := buildLineMapAux t.rows 1 []

/-- Python `f"{n:02d}"` for naturals. -/
def fmt02 (n : ℕ) : String :=
  if n < 10 then "0" ++ toString n else toString n

/-- The `defaults` dict of `_chariloto_entries`. -/
def charilotoDefaults (race_id date_str : String) (race_no : ℕ)
    (bank_code stadium : String) : Dict :=
  [("race_id", race_id), ("date", date_str), ("race_no", fmt02 race_no),
   ("bank_code", bank_code), ("source", "chariloto"), ("score", ""),
   ("style", ""), ("backs", "0"), ("homes", "0"), ("starts", "0"),
   ("win_rate", "0"), ("quinella_rate", "0"), ("top3_rate", "0"),
   ("kimarite_nige", "0"), ("kimarite_makuri", "0"),
   ("kimarite_sashi", "0"), ("kimarite_mark", "0"), ("line_id", ""),
   ("line_pos", ""), ("prefecture", ""), ("class", ""), ("age", ""),
   ("gear", ""), ("track", stadium)]

/-- One optional-column assignment (`if col: entry[key] = value`). -/
def colUpd (cols : List String) (row : List (Option String))
    (oc : Option String) (key : String) : List (String × String) :=
  match oc with
  | some c => [(key, normalize_value (rowCell cols row c))]
  | none => []

/-- Same, but empty values fall back to `"0"` (`value or "0"`). -/
def colUpdD0 (cols : List String) (row : List (Option String))
    (oc : Option String) (key : String) : List (String × String) :=
  match oc with
  | some c => [(key, pyOr (normalize_value (rowCell cols row c)) "0")]
  | none => []

/-- The `決まり手` cell of the row, when that column exists. -/
def techniqueOf (cols : List String) (row : List (Option String)) : String :=
  match find_column cols ["決まり手", "決め手"] with
  | some kc => normalize_value (rowCell cols row kc)
  | none => ""

/-- The four winning-technique flags, set only for the race winner. -/
def kimariteUpds (technique fv : String) : List (String × String) :=
  if fv = "1" then
    (if strContains technique "逃" then [("kimarite_nige", "1")] else []) ++
    (if strContains technique "捲" || strContains technique "捲り" then
      [("kimarite_makuri", "1")] else []) ++
    (if strContains technique "差" then [("kimarite_sashi", "1")] else []) ++
    (if strContains technique "マ" then [("kimarite_mark", "1")] else [])
  else []

/-- The line-id/line-pos assignment when the lane is in the line map. -/
def lineUpds (lineMap : LineMap) (lv : String) : List (String × String) :=
  match alistGet? lineMap lv with
  | some v => [("line_id", v.1), ("line_pos", toString v.2)]
  | none => []

/-- All per-row assignments `_chariloto_entries` performs on the defaults
dict, in program order. -/
def entryUpdates (cols : List String) (row : List (Option String))
    (lineMap : LineMap) (fv lv : String) : List (String × String) :=
  [("lane_no", lv), ("finish_pos", fv)]
  ++ colUpd cols row (find_column cols ["選手名", "選手"]) "rider_name"
  ++ colUpd cols row (find_column cols ["脚質"]) "style"
  ++ colUpd cols row (find_column cols ["得点", "競走得点"]) "score"
  ++ colUpd cols row (find_column cols ["年齢"]) "age"
  ++ colUpd cols row (find_column cols ["府県", "都道府県"]) "prefecture"
  ++ colUpd cols row (find_column cols ["級班", "級"]) "class"
  ++ colUpd cols row (find_column cols ["ギヤ", "ギア"]) "gear"
  ++ colUpdD0 cols row (find_column cols ["Ｂ", "B"]) "backs"
  ++ colUpdD0 cols row (find_column cols ["Ｈ", "H"]) "homes"
  ++ colUpdD0 cols row (find_column cols ["Ｓ", "S"]) "starts"
  ++ kimariteUpds (techniqueOf cols row) fv
  ++ lineUpds lineMap lv

/-- A row survives `_chariloto_entries` iff both its finish and lane cells
normalize to non-empty strings. -/
def rowKeep (cols : List String) (fc lc : String)
    (row : List (Option String)) : Bool :=
  !(normalize_value (rowCell cols row fc) == "") &&
    !(normalize_value (rowCell cols row lc) == "")

/-- The entry dict built from one surviving result row. -/
def entryOfRow (cols : List String) (race_id date_str : String)
    (race_no : ℕ) (bank_code stadium : String) (lineMap : LineMap)
    (fc lc : String) (row : List (Option String)) : Option Dict :=
  if rowKeep cols fc lc row then
    some (dictUpdate (charilotoDefaults race_id date_str race_no bank_code stadium)
      (entryUpdates cols row lineMap
        (normalize_value (rowCell cols row fc))
        (normalize_lane (normalize_value (rowCell cols row lc)))))
  else none

/-- `_chariloto_entries`: no entries unless both a finish-position column
and a lane column exist; each surviving row yields one entry dict. -/
def chariloto_entries (t : PTable) (race_id date_str : String)
    (race_no : ℕ) (bank_code : String) (lineMap : LineMap)
    (stadium : String) : List Dict :=
  match find_column (flatten_columns t.columns) ["着順", "着"],
        find_column (flatten_columns t.columns) ["車番", "車号", "車"] with
  | some fc, some lc =>
    t.rows.filterMap
      (entryOfRow (flatten_columns t.columns) race_id date_str race_no
        bank_code stadium lineMap fc lc)
  | _, _ => []

/-- The concatenated flattened column labels of a table. -/
def joinedColumns (t : PTable) : String :=
  String.join (flatten_columns t.columns)

/-- The day parser classifies a table as a result table when its joined
columns mention both a finish and a lane heading. -/
def isResultTable (t : PTable) : Bool :=
  strContains (joinedColumns t) "着" && strContains (joinedColumns t) "車"

/-- A line table mentions a line or ordering heading (checked only when the
table is not a result table, per the `elif`). -/
def isLineTable (t : PTable) : Bool :=
  strContains (joinedColumns t) "ライン" || strContains (joinedColumns t) "並び"

/-- The result tables of a day page, in document order. -/
def dayResultTables (tables : List PTable) : List PTable :=
  tables.filter isResultTable

/-- The line maps of a day page, in document order. -/
def dayLineMaps (tables : List PTable) : List LineMap :=
  (tables.filter (fun t => !(isResultTable t) && isLineTable t)).map
    build_line_map

/-- `int(rid[-2:])` on a digit suffix (the sort key of the day loop). -/
def lastTwoNat (rid : String) : ℕ := ((rid.takeRight 2).toNat?).getD 0

/-- `sorted(race_ids, key=lambda rid: int(rid[-2:]))` (stable). -/
def sortedRaceIds (ids : List String) : List String :=
  sortBy (fun a b => decide (lastTwoNat a ≤ lastTwoNat b)) ids

/-- The unique non-empty line ids of a line map. -/
def lineIdsOf (m : LineMap) : List String :=
  ((m.map (fun p => p.2.1)).filter (fun s => !(s == ""))).dedup

/-- The `line_pattern` segments: per line id (ascending numerically), the
number of lanes on that line. -/
def patternSegments (m : LineMap) : List String :=
  (sortBy (fun a b => decide (((a.toNat?).getD 0) ≤ ((b.toNat?).getD 0)))
    (lineIdsOf m)).map
    (fun lid => toString ((m.filter (fun p => p.2.1 == lid)).length))

/-- The info row `_parse_chariloto_day` emits for a contributing race. -/
def infoRowFor (date_str bank_code title stadium race_id : String)
    (race_no : ℕ) (lineMap : LineMap) (entries : List Dict) : Dict :=
  [("race_id", race_id), ("date", date_str), ("race_no", fmt02 race_no),
   ("stadium", stadium),
   ("track", if stadium = "" then "bank_" ++ bank_code else stadium),
   ("title", title), ("grade", ""), ("weather", ""), ("wind", ""),
   ("field_size", toString entries.length),
   ("line_count",
     if lineIdsOf lineMap = [] then "0"
     else toString (lineIdsOf lineMap).length),
   ("line_pattern", String.intercalate "/" (patternSegments lineMap)),
   ("bank_code", bank_code), ("source", "chariloto")]

/-- The race number of the id at position `idx` of the sorted id list. -/
def raceNoOf (idx : ℕ) (rid : String) : ℕ :=
  if pyIsDigit (rid.takeRight 2) then lastTwoNat rid else idx + 1

/-- The per-race loop of `_parse_chariloto_day`: race `idx` is silently
skipped when it has no result table at its position or that table yields
no entries; otherwise it contributes its entries and one info row. -/
def parseDayLoop (date_str bank_code title stadium : String)
    (rts : List PTable) (lms : List LineMap) :
    List String → ℕ → List Dict × List Dict
  | [], _ => ([], [])
  | rid :: rest, idx =>
    match rts[idx]? with
    | none => parseDayLoop date_str bank_code title stadium rts lms rest (idx + 1)
    | some t =>
      match chariloto_entries t rid date_str (raceNoOf idx rid) bank_code
          ((lms[idx]?).getD []) stadium with
      | [] => parseDayLoop date_str bank_code title stadium rts lms rest (idx + 1)
      | e :: es =>
        ((infoRowFor date_str bank_code title stadium rid (raceNoOf idx rid)
            ((lms[idx]?).getD []) (e :: es)) ::
          (parseDayLoop date_str bank_code title stadium rts lms rest (idx + 1)).1,
          (e :: es) ++
            (parseDayLoop date_str bank_code title stadium rts lms rest (idx + 1)).2)

/-- The info and entry rows of `_parse_chariloto_day` (the payout tables
feed a separate, race-loop-independent extraction). -/
def parse_chariloto_day_races (date_str bank_code title stadium : String)
    (tables : List PTable) (race_ids : List String) :
    List Dict × List Dict :=
  parseDayLoop date_str bank_code title stadium (dayResultTables tables)
    (dayLineMaps tables) (sortedRaceIds race_ids) 0

/-- A result table contributes iff it has a finish column, a lane column
and at least one row with non-empty values for both. -/
def tableQualifies (t : PTable) : Bool :=
  match find_column (flatten_columns t.columns) ["着順", "着"],
        find_column (flatten_columns t.columns) ["車番", "車号", "車"] with
  | some fc, some lc => t.rows.any (rowKeep (flatten_columns t.columns) fc lc)
  | _, _ => false

/-- A race at position `idx` has a qualifying result table. -/
def tableQualifiesAt (rts : List PTable) (idx : ℕ) : Prop :=
  ∃ t, rts[idx]? = some t ∧ tableQualifies t = true

/-- A concrete two-row chariloto result table. -/
def exampleResultTable : PTable :=
  { columns := ["着順", "車番", "選手名"]
    rows := [[some "1", some "1", some "A"], [some "2", some "2", some "B"]] }

/-- A concrete day page holding just the result table. -/
def exampleDayTables : List PTable := [exampleResultTable]

/-- A concrete chariloto race id list. -/
def exampleDayIds : List String := ["20250203CL0101"]

/-! ## Monte Carlo engine and backtest pipeline (modelled from the spec,
§§4.1, 4.4, 5)

`model.py` is absent from the repository snapshot.  The sampler threads an
explicit 64-bit linear-congruential generator seeded by the caller; the
rest of the pipeline is pure.  A `World` carries the ambient (global)
random state that out-of-core collaborators use; the core must never
consume it. -/

/-- A 64-bit linear congruential step, the explicit seeded random source. -/
def lcgNext (s : ℕ) : ℕ :=
  (6364136223846793005 * s + 1442695040888963407) % (2 ^ 64)

/-- Select the entrant whose cumulative weight interval contains the
target (sequential weighted draw). -/
def pickIndexAux : List ℚ → ℚ → ℕ → ℕ
  | [], _, i => i
  | [_], _, i => i
  | w :: rest, target, i =>
    if target < w then i else pickIndexAux rest (target - w) (i + 1)

/-- Draw a full finishing order by sequential weighted draws without
replacement, threading the generator state. -/
def drawOrderAux : ℕ → ℕ → List (ℕ × ℚ) → List ℕ × ℕ
  | 0, s, _ => ([], s)
  | _ + 1, s, [] => ([], s)
  | fuel + 1, s, it :: its =>
    let items := it :: its
    let s' := lcgNext s
    let k := pickIndexAux (items.map (·.2))
      (((s' : ℚ) / 2 ^ 64) * (items.map (·.2)).sum) 0
    let out := drawOrderAux fuel s' (items.eraseIdx k)
    ((items.getD k (0, 0)).1 :: out.1, out.2)

/-- One full finishing-order draw. -/
def drawOrder (s : ℕ) (items : List (ℕ × ℚ)) : List ℕ × ℕ :=
  drawOrderAux items.length s items

/-- Repeat the draw `iters` times, counting top-3 appearances per lane. -/
def mcCountsAux : ℕ → ℕ → List (ℕ × ℚ) → List (ℕ × ℕ) → List (ℕ × ℕ) × ℕ
  | 0, s, _, counts => (counts, s)
  | iters + 1, s, items, counts =>
    mcCountsAux iters (drawOrder s items).2 items
      (counts.map (fun c =>
        if ((drawOrder s items).1.take 3).contains c.1 then (c.1, c.2 + 1)
        else c))

/-- Modelled from the spec: the Monte Carlo method's per-lane top-3
estimates: observed frequency over `iters` seeded draws; trivially `1`
for fields smaller than three. -/
def mc_top3 (seed iters : ℕ) (lanes : List (ℕ × ℚ)) : List (ℕ × ℚ) :=
  if lanes.length < 3 then lanes.map (fun p => (p.1, 1))
  else
    ((mcCountsAux iters seed (lanes.map (fun p => (p.1, clipStrength p.2)))
        (lanes.map (fun p => (p.1, 0)))).1).map
      (fun c => (c.1, (c.2 : ℚ) / iters))

/-- The sequential-draw term of one ordered triple (list form). -/
def plTerm (S a b c : ℚ) : ℚ :=
  a / S * (b / (S - a)) * (c / (S - a - b))

/-- The independent method's top-3 probability of `lane` (list form). -/
def plTop3For (w : List (ℕ × ℚ)) (lane : ℕ) : ℚ :=
  (((picks w).map (fun pa =>
    ((picks pa.2).map (fun pb =>
      pb.2.map (fun c =>
        if pa.1.1 = lane ∨ pb.1.1 = lane ∨ c.1 = lane then
          plTerm ((w.map (·.2)).sum) pa.1.2 pb.1.2 c.2
        else 0))).flatten)).flatten).sum

/-- Modelled from the spec: the independent method over a race's lanes. -/
def indepTop3 (lanes : List (ℕ × ℚ)) : List (ℕ × ℚ) :=
  if lanes.length < 3 then lanes.map (fun p => (p.1, 1))
  else lanes.map (fun p =>
    (p.1, plTop3For (lanes.map (fun q => (q.1, clipStrength q.2))) p.1))

/-- Modelled from the spec: per-race predictions under the selected method;
the Monte Carlo path uses only the explicitly passed seed. -/
def predictRaces (method : String) (seed iters : ℕ)
    (races : List (String × List (ℕ × ℚ))) : List RacePred :=
  races.map (fun r =>
    { race_id := r.1
      entries :=
        (if method = "mc" then mc_top3 seed iters r.2 else indepTop3 r.2).map
          (fun p => { lane := p.1, prob := p.2 }) })

/-- A historical race: strengths, official finishing order, posted per-unit
payout for the ordered-triple bet type. -/
structure HistRace where
  race_id : String
  lanes : List (ℕ × ℚ)
  official : List ℕ
  payout : ℚ
deriving DecidableEq, Repr

/-- Modelled from the spec: the per-run backtest aggregate. -/
structure BacktestResult where
  races_considered : ℕ
  races_bet : ℕ
  total_stake : ℕ
  total_return : ℚ
  roi : ℚ
  hit_rate : ℚ
deriving DecidableEq, Repr

/-- The return of one BetRow: each ticket wins only on an exact ordered
match, earning the payout scaled by its stake. -/
def rowReturn (official : List ℕ) (payout : ℚ) (row : BetRow) : ℚ :=
  (row.allocation.map (fun al =>
    if official.take 3 = [al.1.1, al.1.2.1, al.1.2.2] then payout * al.2
    else 0)).sum

/-- Whether one of the row's tickets matches the official top three. -/
def rowHit (official : List ℕ) (row : BetRow) : Bool :=
  row.allocation.any (fun al =>
    decide (official.take 3 = [al.1.1, al.1.2.1, al.1.2.2]))

/-- Modelled from the spec: replay prediction and allocation over history
and accumulate stake, return, ROI (zero on zero stake) and hit rate. -/
def backtestPure (hist : List HistRace) (cfg : ThresholdConfig) (B : ℕ)
    (policy : String) (maxPoints : ℕ) (zoneFilter : String)
    (method : String) (seed iters : ℕ) : BacktestResult :=
  let preds := predictRaces method seed iters
    (hist.map (fun h => (h.race_id, h.lanes)))
  let rows := suggest_bets preds cfg B policy maxPoints zoneFilter
  let stake := totalStake rows
  let ret := (rows.map (fun row =>
    match hist.find? (fun h => h.race_id == row.race_id) with
    | some h => rowReturn h.official h.payout row
    | none => 0)).sum
  let hits := (rows.filter (fun row =>
    match hist.find? (fun h => h.race_id == row.race_id) with
    | some h => rowHit h.official row
    | none => false)).length
  { races_considered := hist.length
    races_bet := rows.length
    total_stake := stake
    total_return := ret
    roi := if stake = 0 then 0 else (ret - (stake : ℚ)) / (stake : ℚ)
    hit_rate := if rows.length = 0 then 0 else (hits : ℚ) / (rows.length : ℚ) }

/-- The ambient interpreter state the out-of-core collaborators (and only
they) may draw randomness from. -/
structure World where
  ambientRng : ℕ
deriving DecidableEq, Repr

/-- The ambient random source (available to collaborators such as the
scraper's rate-limit jitter; the core never calls it). -/
def ambientUniform (w : World) : ℚ × World :=
  (((lcgNext w.ambientRng : ℕ) : ℚ) / 2 ^ 64, ⟨lcgNext w.ambientRng⟩)

/-- The prediction stage as a state transformer over the world. -/
def runPredict (method : String) (seed iters : ℕ)
    (races : List (String × List (ℕ × ℚ))) (w : World) :
    List RacePred × World :=
  (predictRaces method seed iters races, w)

/-- The allocation stage as a state transformer over the world. -/
def runSuggestBets (races : List RacePred) (cfg : ThresholdConfig) (B : ℕ)
    (policy : String) (maxPoints : ℕ) (zoneFilter : String) (w : World) :
    List BetRow × World :=
  (suggest_bets races cfg B policy maxPoints zoneFilter, w)

/-- The backtest as a state transformer over the world. -/
def runBacktest (hist : List HistRace) (cfg : ThresholdConfig) (B : ℕ)
    (policy : String) (maxPoints : ℕ) (zoneFilter : String)
    (method : String) (seed iters : ℕ) (w : World) :
    BacktestResult × World :=
  (backtestPure hist cfg B policy maxPoints zoneFilter method seed iters, w)

end Keirin

namespace Keirin

/-! ## Theorems -/

/-- C3: the prediction-method selector accepts exactly `independent` and
`mc`; in particular the spec's name `monte_carlo` is rejected as a
configuration error by argparse. -/
theorem ct_selector_choices (m : String) :
    ctAccepts m = true ↔ m = "independent" ∨ m = "mc" := by
  unfold ctAccepts ctChoices
  rw [List.elem_iff]
  simp

/-- C3 counterexample: contrary to the claim, `monte_carlo` is not accepted
by the `--ct` selector, while the undocumented value `mc` is. -/
theorem ct_selector_monte_carlo_rejected :
    ctAccepts "monte_carlo" = false ∧ ctAccepts "mc" = true := by
  decide

/-- C3 witness: instantiating the characterization at `independent`. -/
theorem ct_selector_choices_witness :
    ctAccepts "independent" = true :=
  (ct_selector_choices "independent").mpr (Or.inl rfl)

/-- C5: zone classification is monotone in the representative probability:
for any fixed `ThresholdConfig` and probabilities `p₁ ≤ p₂`, the zone
assigned at `p₂` ranks at least as high as the one assigned at `p₁`
under the order `A > B > C > none`. -/
theorem classifyZone_monotone (cfg : ThresholdConfig) (p₁ p₂ : ℚ)
    (h : p₁ ≤ p₂) :
    zoneRank (classifyZone cfg p₁) ≤ zoneRank (classifyZone cfg p₂) := by
  unfold classifyZone
  by_cases ha1 : cfg.a ≤ p₁
  · have ha2 : cfg.a ≤ p₂ := le_trans ha1 h
    simp [ha1, ha2]
  · by_cases hb1 : cfg.b ≤ p₁
    · have hb2 : cfg.b ≤ p₂ := le_trans hb1 h
      by_cases ha2 : cfg.a ≤ p₂ <;> simp [ha1, hb1, ha2, hb2, zoneRank]
    · by_cases hc1 : cfg.c ≤ p₁
      · have hc2 : cfg.c ≤ p₂ := le_trans hc1 h
        by_cases ha2 : cfg.a ≤ p₂ <;> by_cases hb2 : cfg.b ≤ p₂ <;>
          simp [ha1, hb1, hc1, ha2, hb2, hc2, zoneRank]
      · by_cases ha2 : cfg.a ≤ p₂ <;> by_cases hb2 : cfg.b ≤ p₂ <;>
          by_cases hc2 : cfg.c ≤ p₂ <;>
          simp [ha1, hb1, hc1, ha2, hb2, hc2, zoneRank]

/-- C5 witness: a concrete instance of the monotonicity theorem. -/
theorem classifyZone_monotone_witness :
    (1:ℚ)/2 ≤ 9/10 ∧
      zoneRank (classifyZone defaultThresholds (1/2)) ≤
        zoneRank (classifyZone defaultThresholds (9/10)) :=
  ⟨by norm_num, classifyZone_monotone defaultThresholds (1/2) (9/10) (by norm_num)⟩

/-- C6: `config_thresholds` succeeds exactly when every supplied key is one
of `A`,`B`,`C` and the overlaid cutoffs are non-increasing from A to C,
and on success it returns the defaults overlaid with the supplied
entries; otherwise it is a configuration error. -/
theorem config_thresholds_spec (m : List (String × ℚ)) :
    (∀ cfg, config_thresholds m = Except.ok cfg → cfg = overlayThresholds m) ∧
      ((∃ cfg, config_thresholds m = Except.ok cfg) ↔
        ((∀ p ∈ m, p.1 = "A" ∨ p.1 = "B" ∨ p.1 = "C") ∧
          (overlayThresholds m).b ≤ (overlayThresholds m).a ∧
          (overlayThresholds m).c ≤ (overlayThresholds m).b)) := by
  unfold config_thresholds
  by_cases hk : (m.all fun p => zoneKeys.contains p.1) = true
  · rw [if_pos hk]
    by_cases hord : (overlayThresholds m).b ≤ (overlayThresholds m).a ∧
        (overlayThresholds m).c ≤ (overlayThresholds m).b
    · rw [if_pos hord]
      refine ⟨fun cfg hcfg => (Except.ok.inj hcfg).symm, ?_, ?_⟩
      · intro _
        refine ⟨?_, hord.1, hord.2⟩
        intro p hp
        have hc := (List.all_eq_true.mp hk) p hp
        have := List.elem_iff.mp hc
        simpa [zoneKeys] using this
      · intro _
        exact ⟨overlayThresholds m, rfl⟩
    · rw [if_neg hord]
      refine ⟨?_, ?_, ?_⟩
      · intro cfg hcfg
        cases hcfg
      · intro ⟨cfg, hcfg⟩
        cases hcfg
      · intro ⟨_, hb, hc⟩
        exact absurd ⟨hb, hc⟩ hord
  · rw [if_neg hk]
    refine ⟨?_, ?_, ?_⟩
    · intro cfg hcfg
      cases hcfg
    · intro ⟨cfg, hcfg⟩
      cases hcfg
    · intro ⟨hkeys, _⟩
      refine absurd ?_ hk
      refine List.all_eq_true.mpr ?_
      intro p hp
      refine List.elem_iff.mpr ?_
      rcases hkeys p hp with h | h | h <;> simp [zoneKeys, h]

/-- C6 witness: overriding only `A` keeps the other defaults and succeeds. -/
theorem config_thresholds_spec_witness :
    config_thresholds [("A", 9/10)] =
      Except.ok { a := 9/10, b := 3/5, c := 2/5 } := by
  have hov : overlayThresholds [("A", (9:ℚ)/10)] =
      { a := 9/10, b := 3/5, c := 2/5 } := by
    simp [overlayThresholds, lookupKey, defaultThresholds, List.find?]
  have h := (config_thresholds_spec [("A", (9:ℚ)/10)]).2.mpr
    (by refine ⟨?_, ?_, ?_⟩
        · intro p hp
          simp only [List.mem_singleton] at hp
          subst hp
          exact Or.inl rfl
        · rw [hov]; norm_num
        · rw [hov]; norm_num)
  obtain ⟨cfg, hcfg⟩ := h
  have heq := (config_thresholds_spec [("A", (9:ℚ)/10)]).1 cfg hcfg
  rw [hcfg, heq, hov]

/-! ### Dictionary lemmas -/

/-- Looking up the key just assigned yields the assigned value. -/
theorem alistGet?_set_same {α : Type} (d : List (String × α)) (k : String)
    (v : α) : alistGet? (alistSet d k v) k = some v := by
  induction d with
  | nil => simp [alistSet, alistGet?]
  | cons p rest ih =>
    by_cases h : p.1 = k
    · simp [alistSet, alistGet?, h]
    · simp [alistSet, alistGet?, h, ih]

/-- Assigning one key leaves the others unchanged. -/
theorem alistGet?_set_other {α : Type} (d : List (String × α)) (k k' : String)
    (v : α) (h : k' ≠ k) :
    alistGet? (alistSet d k v) k' = alistGet? d k' := by
  induction d with
  | nil => simp [alistSet, alistGet?, (Ne.symm h)]
  | cons p rest ih =>
    by_cases hp : p.1 = k
    · simp [alistSet, alistGet?, hp, (Ne.symm h)]
    · simp [alistSet, alistGet?, hp, ih]

/-- Keys after assignment: unchanged when present, appended when new. -/
theorem dictKeys_alistSet {α : Type} (d : List (String × α)) (k : String)
    (v : α) :
    dictKeys (alistSet d k v) =
      if k ∈ dictKeys d then dictKeys d else dictKeys d ++ [k] := by
  induction d with
  | nil => simp [alistSet, dictKeys]
  | cons p rest ih =>
    by_cases hp : p.1 = k
    · simp [alistSet, dictKeys, hp]
    · have hne : ¬ k = p.1 := fun hh => hp hh.symm
      have hred : dictKeys (alistSet (p :: rest) k v) =
          p.1 :: dictKeys (alistSet rest k v) := by
        simp [alistSet, dictKeys, hp]
      rw [hred, ih]
      by_cases hm : k ∈ dictKeys rest
      · have hm2 : k ∈ dictKeys (p :: rest) :=
          List.mem_cons.mpr (Or.inr hm)
        rw [if_pos hm, if_pos hm2]
        rfl
      · have hm2 : k ∉ dictKeys (p :: rest) := by
          intro hh
          rcases List.mem_cons.mp (show k ∈ p.1 :: dictKeys rest from hh)
            with h' | h'
          · exact hne h'
          · exact hm h'
        rw [if_neg hm, if_neg hm2]
        rfl

/-- Assignment preserves key uniqueness. -/
theorem nodupKeys_alistSet {α : Type} (d : List (String × α)) (k : String)
    (v : α) (h : (dictKeys d).Nodup) :
    (dictKeys (alistSet d k v)).Nodup := by
  rw [dictKeys_alistSet]
  by_cases hm : k ∈ dictKeys d
  · simpa [hm] using h
  · simp only [hm, if_neg, ite_false]
    simp [List.nodup_append, h, hm]

/-- An absent key looks up to `none`. -/
theorem alistGet?_eq_none_of_not_mem {α : Type} (d : List (String × α))
    (k : String) (h : k ∉ dictKeys d) : alistGet? d k = none := by
  induction d with
  | nil => rfl
  | cons p rest ih =>
    simp [dictKeys] at h
    have h1 : ¬ p.1 = k := fun hh => h.1 hh.symm
    simp [alistGet?, h1]
    exact ih (by simpa [dictKeys] using h.2)

/-- The value of a key after `_normalize_row`: the last non-`None` value the
row supplies for it, else the default. -/
theorem normalize_row_get (r : Row) (d : Dict) (k : String) :
    alistGet? (normalize_row r d) k =
      optOr (suppliedVal r k) (alistGet? d k) := by
  induction r generalizing d with
  | nil => rfl
  | cons p rest ih =>
    cases hv : p.2 with
    | none =>
      have hstep : normalize_row (p :: rest) d = normalize_row rest d := by
        simp [normalize_row, hv]
      rw [hstep, ih]
      cases hs : suppliedVal rest k with
      | some v => simp [suppliedVal, hs, optOr]
      | none => simp [suppliedVal, hs, hv, optOr]
    | some v =>
      have hstep : normalize_row (p :: rest) d =
          normalize_row rest (alistSet d p.1 v) := by
        simp [normalize_row, hv]
      rw [hstep, ih]
      cases hs : suppliedVal rest k with
      | some w => simp [suppliedVal, hs, optOr]
      | none =>
        by_cases hp : p.1 = k
        · simp [suppliedVal, hs, hv, hp, optOr, alistGet?_set_same]
        · have := alistGet?_set_other d p.1 k v (fun hh => hp hh.symm)
          simp [suppliedVal, hs, hv, hp, optOr, this]

/-- `_normalize_row` preserves key uniqueness. -/
theorem nodupKeys_normalize_row (r : Row) (d : Dict)
    (h : (dictKeys d).Nodup) : (dictKeys (normalize_row r d)).Nodup := by
  induction r generalizing d with
  | nil => exact h
  | cons p rest ih =>
    cases hv : p.2 with
    | none =>
      have hstep : normalize_row (p :: rest) d = normalize_row rest d := by
        simp [normalize_row, hv]
      rw [hstep]; exact ih d h
    | some v =>
      have hstep : normalize_row (p :: rest) d =
          normalize_row rest (alistSet d p.1 v) := by
        simp [normalize_row, hv]
      rw [hstep]
      exact ih _ (nodupKeys_alistSet d p.1 v h)

/-- `base.update(upd)` for a dict with unique keys: the updated value wins,
otherwise the base value remains. -/
theorem dictUpdate_get (b u : Dict) (k : String)
    (hu : (dictKeys u).Nodup) :
    alistGet? (dictUpdate b u) k = optOr (alistGet? u k) (alistGet? b k) := by
  induction u generalizing b with
  | nil => rfl
  | cons p rest ih =>
    have hstep : dictUpdate b (p :: rest) =
        dictUpdate (alistSet b p.1 p.2) rest := rfl
    have hcons :=
      List.nodup_cons.mp (show (p.1 :: dictKeys rest).Nodup from hu)
    rw [hstep, ih _ hcons.2]
    by_cases hp : p.1 = k
    · have hnone : alistGet? rest k = none :=
        alistGet?_eq_none_of_not_mem rest k (hp ▸ hcons.1)
      simp [alistGet?, hp, hnone, optOr, alistGet?_set_same]
    · have := alistGet?_set_other b p.1 k p.2 (fun hh => hp hh.symm)
      simp [alistGet?, hp, optOr, this]

/-- After `pop(k)`, the key `k` is gone. -/
theorem alistGet?_pop_same (d : Dict) (k : String) :
    alistGet? (dictPop d k) k = none := by
  induction d with
  | nil => rfl
  | cons p rest ih =>
    by_cases hp : p.1 = k
    · simpa [dictPop, hp] using ih
    · simpa [dictPop, alistGet?, hp] using ih

/-- `pop(k)` leaves other keys unchanged. -/
theorem alistGet?_pop_other (d : Dict) (k k' : String) (h : k' ≠ k) :
    alistGet? (dictPop d k) k' = alistGet? d k' := by
  induction d with
  | nil => rfl
  | cons p rest ih =>
    by_cases hp : p.1 = k
    · have h1 : ¬ p.1 = k' := by
        rw [hp]; exact fun hh => h hh.symm
      simpa [dictPop, alistGet?, List.filter_cons, hp, h1, Ne.symm h] using ih
    · by_cases hp' : p.1 = k'
      · simp [dictPop, alistGet?, List.filter_cons, hp, hp', h]
      · simpa [dictPop, alistGet?, List.filter_cons, hp, hp'] using ih

/-- The popped key is not among the keys of the result. -/
theorem not_mem_keys_pop (d : Dict) (k : String) :
    k ∉ dictKeys (dictPop d k) := by
  intro hmem
  simp only [dictKeys, dictPop, List.mem_map] at hmem
  obtain ⟨p, hp, hk⟩ := hmem
  have := (List.mem_filter.mp hp).2
  simp [hk] at this

/-- A key absent from the accumulator and from a row is absent after
folding that row's keys into the header list. -/
theorem not_mem_header_fold (row : Dict) (hs : List String) (k : String)
    (hb : k ∉ hs) (hrow : k ∉ dictKeys row) :
    k ∉ row.foldl
        (fun hs p => if hs.contains p.1 then hs else hs ++ [p.1]) hs := by
  induction row generalizing hs with
  | nil => exact hb
  | cons p rest ih =>
    have hrow2 : ¬ (k = p.1 ∨ k ∈ dictKeys rest) := by
      intro hor
      exact hrow (List.mem_cons.mpr hor : k ∈ p.1 :: dictKeys rest)
    have h1 : ¬ k = p.1 := fun hh => hrow2 (Or.inl hh)
    have h2 : k ∉ dictKeys rest := fun hh => hrow2 (Or.inr hh)
    have step : k ∉ (if hs.contains p.1 then hs else hs ++ [p.1]) := by
      by_cases hc : hs.contains p.1 = true
      · rw [if_pos hc]; exact hb
      · rw [if_neg hc]
        simp [hb, h1]
    exact ih _ step h2

/-- `_collect_headers` never invents a key: a key absent from the preferred
order and from every row is absent from the headers. -/
theorem not_mem_collect_headers (rows : List Dict) (base : List String)
    (k : String) (hb : k ∉ base) (hr : ∀ row ∈ rows, k ∉ dictKeys row) :
    k ∉ collect_headers rows base := by
  induction rows generalizing base with
  | nil => exact hb
  | cons row rest ih =>
    have hrow := hr row (List.mem_cons_self row rest)
    have step := not_mem_header_fold row base k hb hrow
    exact ih _ step (fun r hrr => hr r (List.mem_cons_of_mem row hrr))

/-- If no info row carries the race id, the info map has no entry for it. -/
theorem foldl_infoMap_get_none (infoRows : List Row) (rid : String)
    (m : List (String × Dict)) (hm : alistGet? m rid = none)
    (h : ∀ info ∈ infoRows, pyStr (rowGet info "race_id") ≠ rid) :
    alistGet?
      (infoRows.foldl
        (fun m info =>
          alistSet m (pyStr (rowGet info "race_id"))
            (normalize_row info INFO_DEFAULTS)) m) rid = none := by
  induction infoRows generalizing m with
  | nil => exact hm
  | cons info rest ih =>
    have hne : rid ≠ pyStr (rowGet info "race_id") :=
      fun hh => h info (List.mem_cons_self info rest) hh.symm
    have hstep : alistGet?
        (alistSet m (pyStr (rowGet info "race_id"))
          (normalize_row info INFO_DEFAULTS)) rid = none := by
      rw [alistGet?_set_other _ _ _ _ hne]; exact hm
    exact ih _ hstep (fun i hi => h i (List.mem_cons_of_mem info hi))

/-- Specialization of `foldl_infoMap_get_none` to `buildInfoMap`. -/
theorem buildInfoMap_get_none (infoRows : List Row) (rid : String)
    (h : ∀ info ∈ infoRows, pyStr (rowGet info "race_id") ≠ rid) :
    alistGet? (buildInfoMap infoRows) rid = none :=
  foldl_infoMap_get_none infoRows rid [] rfl h

/-- The `track` backfill touches only the `track` key. -/
theorem trainingFixTrack_get_other (d : Dict) (k : String)
    (h : k ≠ "track") :
    alistGet? (trainingFixTrack d) k = alistGet? d k := by
  unfold trainingFixTrack
  split
  · exact alistGet?_set_other _ _ _ _ h
  · rfl

/-- The `date` backfill touches only the `date` key. -/
theorem trainingFixDate_get_other (e d : Dict) (k : String)
    (h : k ≠ "date") :
    alistGet? (trainingFixDate e d) k = alistGet? d k := by
  unfold trainingFixDate
  split
  · exact alistGet?_set_other _ _ _ _ h
  · rfl

/-- The value a training row carries at key `k` when the normalized entry
row binds `k` to `w` (the `track` backfill excepted for empty values). -/
theorem trainingRow_get_of_entry (infoMap : List (String × Dict)) (r : Row)
    (k w : String)
    (hw : alistGet? (normalize_row r ENTRY_DEFAULTS) k = some w)
    (htrack : k = "track" → w ≠ "") :
    alistGet? (trainingRow infoMap r) k = some w := by
  have hnodup : (dictKeys (normalize_row r ENTRY_DEFAULTS)).Nodup :=
    nodupKeys_normalize_row r ENTRY_DEFAULTS (by decide)
  have hcomb : alistGet? (trainingCombine infoMap r) k = some w := by
    unfold trainingCombine
    rw [dictUpdate_get _ _ _ hnodup, hw]
    rfl
  have htr : alistGet? (trainingFixTrack (trainingCombine infoMap r)) k =
      some w := by
    by_cases hk : k = "track"
    · subst hk
      unfold trainingFixTrack
      by_cases hcond :
          (!(pyTruthy (alistGet? (trainingCombine infoMap r) "track")) &&
            pyTruthy (alistGet? (trainingCombine infoMap r) "stadium")) =
            true
      · exfalso
        rw [hcomb] at hcond
        have hw0 : w = "" := by
          have hx := ((Bool.and_eq_true _ _).mp hcond).1
          simpa [pyTruthy] using hx
        exact htrack rfl hw0
      · rw [if_neg hcond]
        exact hcomb
    · rw [trainingFixTrack_get_other _ _ hk]
      exact hcomb
  show alistGet? (trainingFixDate (normalize_row r ENTRY_DEFAULTS)
    (trainingFixTrack (trainingCombine infoMap r))) k = some w
  by_cases hk : k = "date"
  · subst hk
    unfold trainingFixDate
    by_cases hcond : (!(pyTruthy (alistGet?
        (trainingFixTrack (trainingCombine infoMap r)) "date"))) = true
    · rw [if_pos hcond, alistGet?_set_same]
      rw [show dictGetD (normalize_row r ENTRY_DEFAULTS) "date" "" = w from
        by rw [dictGetD, hw]; rfl]
    · rw [if_neg hcond]
      exact htr
  · rw [trainingFixDate_get_other _ _ _ hk]
    exact htr

/-- C7 counterexample: a cards row built from an entry row that supplies no
score carries the empty string, which is not a numeric score, refuting
the claim that every cards row carries a numeric score. -/
theorem cards_score_missing_counterexample :
    (cardRows [scorelessEntryRow]).map (fun c => alistGet? c "score") =
        [some ""] ∧
      isNumericString "" = false := by
  decide

/-- C7 (amended): every cards row written by `to_cards_csv` carries a
`score` field; its value is the entry row's supplied score when one is
supplied and the empty string (not numeric) otherwise. -/
theorem cards_score_field (entryRows : List Row) :
    ∀ r ∈ entryRows,
      alistGet? (cardRowOf r) "score" =
        some ((suppliedVal r "score").getD "") := by
  intro r _
  unfold cardRowOf
  rw [alistGet?_pop_other _ _ _ (by decide), normalize_row_get]
  rw [show alistGet? ENTRY_DEFAULTS "score" = some "" from by decide]
  cases hs : suppliedVal r "score" <;> simp [optOr]

/-- C7 witness: the amended theorem applied to the concrete score-less row. -/
theorem cards_score_field_witness :
    alistGet? (cardRowOf scorelessEntryRow) "score" =
      some ((suppliedVal scorelessEntryRow "score").getD "") :=
  cards_score_field [scorelessEntryRow] scorelessEntryRow
    (List.mem_singleton.mpr rfl)

/-- C8: the cards CSV has no `finish_pos` header and no cards row carries a
`finish_pos` value, while every training row preserves its entry row's
`finish_pos`. -/
theorem cards_no_finish_pos_training_preserves
    (entryRows infoRows : List Row) :
    "finish_pos" ∉ cardHeaders entryRows ∧
      (∀ c ∈ cardRows entryRows, alistGet? c "finish_pos" = none) ∧
      (∀ r ∈ entryRows,
        alistGet? (trainingRow (buildInfoMap infoRows) r) "finish_pos" =
          some ((suppliedVal r "finish_pos").getD "")) := by
  refine ⟨?_, ?_, ?_⟩
  · apply not_mem_collect_headers
    · decide
    · intro row hrow
      obtain ⟨r, _, rfl⟩ := List.mem_map.mp hrow
      exact not_mem_keys_pop _ _
  · intro c hc
    obtain ⟨r, _, rfl⟩ := List.mem_map.mp hc
    exact alistGet?_pop_same _ _
  · intro r _
    apply trainingRow_get_of_entry
    · rw [normalize_row_get]
      rw [show alistGet? ENTRY_DEFAULTS "finish_pos" = some "" from by decide]
      cases hs : suppliedVal r "finish_pos" <;> simp [optOr]
    · intro hk
      exact absurd hk (by decide)

/-- C8 witness: evaluated on a concrete entry row without info rows. -/
theorem cards_no_finish_pos_witness :
    "finish_pos" ∉ cardHeaders [scorelessEntryRow] ∧
      alistGet? (cardRowOf scorelessEntryRow) "finish_pos" = none ∧
      alistGet? (trainingRow (buildInfoMap []) scorelessEntryRow)
          "finish_pos" = some "" := by
  have th := cards_no_finish_pos_training_preserves [scorelessEntryRow] []
  refine ⟨th.1, th.2.1 _ (List.mem_singleton.mpr rfl), ?_⟩
  have h := th.2.2 scorelessEntryRow (List.mem_singleton.mpr rfl)
  rw [show (suppliedVal scorelessEntryRow "finish_pos").getD "" = ""
    from by decide] at h
  exact h

/-- C9 counterexample: the entry row supplies `track` (the empty string) and
the info row supplies `track` (`"T"`), yet the training row's `track` is
the stadium backfill `"S"`, not the entry row's value. -/
theorem training_track_counterexample :
    suppliedVal trackEntryRow "track" = some "" ∧
      rowGet trackInfoRow "track" = some "T" ∧
      (trainingRows [trackEntryRow] [trackInfoRow]).map
          (fun d => alistGet? d "track") = [some "S"] := by
  decide

/-- C9 (amended): every training row takes the entry row's supplied value
for any field, except that an empty `track` may be backfilled from the
stadium; an entry row with no matching info row is still emitted, with
every info-only field it does not supply at its `INFO_DEFAULTS` value. -/
theorem training_merge_amended (entryRows infoRows : List Row) :
    (trainingRows entryRows infoRows).length = entryRows.length ∧
      (∀ r ∈ entryRows, ∀ k v, suppliedVal r k = some v →
        (k = "track" → v ≠ "") →
        alistGet? (trainingRow (buildInfoMap infoRows) r) k = some v) ∧
      (∀ r ∈ entryRows,
        (∀ info ∈ infoRows,
          pyStr (rowGet info "race_id") ≠ pyStr (rowGet r "race_id")) →
        ∀ k, k ∈ dictKeys INFO_DEFAULTS → k ∉ dictKeys ENTRY_DEFAULTS →
          suppliedVal r k = none →
          alistGet? (trainingRow (buildInfoMap infoRows) r) k =
            alistGet? INFO_DEFAULTS k) := by
  refine ⟨by simp [trainingRows], ?_, ?_⟩
  · intro r _ k v hs htrack
    apply trainingRow_get_of_entry
    · rw [normalize_row_get, hs]
      rfl
    · exact htrack
  · intro r _ hinfo k hkinfo hkentry hks
    have hktrack : k ≠ "track" := by
      intro hk
      exact hkentry (hk ▸ (by decide : "track" ∈ dictKeys ENTRY_DEFAULTS))
    have hkdate : k ≠ "date" := by
      intro hk
      exact hkentry (hk ▸ (by decide : "date" ∈ dictKeys ENTRY_DEFAULTS))
    have hmap : alistGet? (buildInfoMap infoRows)
        (pyStr (rowGet r "race_id")) = none :=
      buildInfoMap_get_none infoRows _ hinfo
    have hentry : alistGet? (normalize_row r ENTRY_DEFAULTS) k = none := by
      rw [normalize_row_get, hks]
      exact alistGet?_eq_none_of_not_mem _ _ hkentry
    have hcomb : alistGet? (trainingCombine (buildInfoMap infoRows) r) k =
        alistGet? INFO_DEFAULTS k := by
      unfold trainingCombine
      rw [hmap]
      rw [dictUpdate_get _ _ _
        (nodupKeys_normalize_row r ENTRY_DEFAULTS (by decide))]
      rw [hentry]
      rfl
    show alistGet? (trainingFixDate (normalize_row r ENTRY_DEFAULTS)
      (trainingFixTrack (trainingCombine (buildInfoMap infoRows) r))) k =
      alistGet? INFO_DEFAULTS k
    rw [trainingFixDate_get_other _ _ _ hkdate,
      trainingFixTrack_get_other _ _ hktrack]
    exact hcomb

/-- C9 witness: a concrete entry row with no info rows keeps its supplied
score and inherits the `field_size` info default. -/
theorem training_merge_witness :
    alistGet? (trainingRow (buildInfoMap []) trackEntryRow) "race_id" =
        some "r1" ∧
      alistGet? (trainingRow (buildInfoMap []) trackEntryRow) "field_size" =
        alistGet? INFO_DEFAULTS "field_size" := by
  have th := training_merge_amended [trackEntryRow] []
  constructor
  · exact th.2.1 trackEntryRow (List.mem_singleton.mpr rfl) "race_id" "r1"
      (by decide) (fun h => absurd h (by decide))
  · exact th.2.2 trackEntryRow (List.mem_singleton.mpr rfl)
      (fun info hi => absurd hi (List.not_mem_nil info)) "field_size"
      (by decide) (by decide) (by decide)

/-! ### Independent-method probability sums -/

/-- The sum of weights over the complement of a finite set of entrants. -/
theorem sum_compl_weights {n : ℕ} (w : Fin n → ℚ) (s : Finset (Fin n)) :
    ∑ x ∈ sᶜ, w x = strengthSum w - ∑ x ∈ s, w x := by
  have h := Finset.sum_compl_add_sum s w
  unfold strengthSum
  linarith [h]

/-- The weight remaining outside a proper subset of entrants is positive
when every weight is positive. -/
theorem sum_compl_weights_pos {n : ℕ} (w : Fin n → ℚ)
    (hw : ∀ i, 0 < w i) (s : Finset (Fin n)) (hs : s.card < n) :
    0 < ∑ x ∈ sᶜ, w x := by
  apply Finset.sum_pos (fun i _ => hw i)
  rw [← Finset.card_pos, Finset.card_compl, Fintype.card_fin]
  omega

/-- Collapsing the innermost draw: the third pick ranges over the remaining
entrants and its conditional probabilities sum to one. -/
theorem seqProb_sum_c {n : ℕ} (w : Fin n → ℚ) (hw : ∀ i, 0 < w i)
    (hn : 3 ≤ n) (a b : Fin n) (hba : b ≠ a) :
    ∑ c ∈ ({a, b} : Finset (Fin n))ᶜ, seqProb w a b c =
      (w a / strengthSum w) * (w b / (strengthSum w - w a)) := by
  have hab : a ∉ ({b} : Finset (Fin n)) := by
    simpa using Ne.symm hba
  have hD : ∑ c ∈ ({a, b} : Finset (Fin n))ᶜ, w c =
      strengthSum w - w a - w b := by
    rw [sum_compl_weights, Finset.sum_insert hab, Finset.sum_singleton]
    ring
  have hcard : ({a, b} : Finset (Fin n)).card = 2 := by
    rw [Finset.card_insert_of_not_mem hab, Finset.card_singleton]
  have hDpos : 0 < strengthSum w - w a - w b := by
    rw [← hD]
    exact sum_compl_weights_pos w hw _ (by omega)
  unfold seqProb
  rw [← Finset.mul_sum, ← Finset.sum_div, hD, div_self (ne_of_gt hDpos),
    mul_one]

/-- Collapsing the middle draw as well: the double sum over second and third
picks reduces to the first pick's probability. -/
theorem seqProb_sum_b {n : ℕ} (w : Fin n → ℚ) (hw : ∀ i, 0 < w i)
    (hn : 3 ≤ n) (a : Fin n) :
    ∑ b ∈ ({a} : Finset (Fin n))ᶜ,
        ∑ c ∈ ({a, b} : Finset (Fin n))ᶜ, seqProb w a b c =
      w a / strengthSum w := by
  rw [Finset.sum_congr rfl
    (fun b hb => seqProb_sum_c w hw hn a b (by simpa using hb))]
  have hA : ∑ b ∈ ({a} : Finset (Fin n))ᶜ, w b = strengthSum w - w a := by
    rw [sum_compl_weights, Finset.sum_singleton]
  have hApos : 0 < strengthSum w - w a := by
    rw [← hA]
    exact sum_compl_weights_pos w hw _ (by simp; omega)
  rw [← Finset.mul_sum, ← Finset.sum_div, hA, div_self (ne_of_gt hApos),
    mul_one]

/-- The total sequential-draw probability over all ordered triples of
distinct entrants is one. -/
theorem seqProb_total {n : ℕ} (w : Fin n → ℚ) (hw : ∀ i, 0 < w i)
    (hn : 3 ≤ n) :
    ∑ a, ∑ b ∈ ({a} : Finset (Fin n))ᶜ,
        ∑ c ∈ ({a, b} : Finset (Fin n))ᶜ, seqProb w a b c = 1 := by
  rw [Finset.sum_congr rfl (fun a _ => seqProb_sum_b w hw hn a)]
  have hSpos : 0 < strengthSum w := by
    have h := sum_compl_weights_pos w hw ∅
      (by rw [Finset.card_empty]; omega)
    simpa [sum_compl_weights, strengthSum] using h
  rw [← Finset.sum_div]
  exact div_self (ne_of_gt hSpos)

/-- The per-entrant sum of independent-method top-3 probabilities for a
field of at least three positive-weight entrants. -/
theorem top3Prob_sum_of_pos {n : ℕ} (w : Fin n → ℚ) (hw : ∀ i, 0 < w i)
    (hn : 3 ≤ n) : ∑ i, top3Prob w i = 3 := by
  have hnlt : ¬ n < 3 := not_lt.mpr hn
  have hswap : ∑ i, top3Prob w i =
      ∑ a, ∑ b ∈ ({a} : Finset (Fin n))ᶜ,
        ∑ c ∈ ({a, b} : Finset (Fin n))ᶜ, (3 : ℚ) * seqProb w a b c := by
    simp only [top3Prob, if_neg hnlt]
    rw [Finset.sum_comm]
    refine Finset.sum_congr rfl (fun a _ => ?_)
    rw [Finset.sum_comm]
    refine Finset.sum_congr rfl (fun b hb => ?_)
    rw [Finset.sum_comm]
    refine Finset.sum_congr rfl (fun c hc => ?_)
    have hmem : ∀ i : Fin n,
        (i = a ∨ i = b ∨ i = c) ↔ i ∈ ({a, b, c} : Finset (Fin n)) := by
      intro i; simp
    rw [Finset.sum_congr rfl
      (fun i _ => if_congr (hmem i) rfl rfl)]
    rw [Finset.sum_ite_mem, Finset.univ_inter, Finset.sum_const]
    have hba : b ≠ a := by simpa using hb
    have hcab : ¬ (c = a ∨ c = b) := by simpa using hc
    have hcard : ({a, b, c} : Finset (Fin n)).card = 3 := by
      rw [Finset.card_insert_of_not_mem, Finset.card_insert_of_not_mem,
        Finset.card_singleton]
      · simp only [Finset.mem_singleton]
        exact fun hh => hcab (Or.inr hh.symm)
      · simp only [Finset.mem_insert, Finset.mem_singleton]
        rintro (hh | hh)
        · exact hba hh.symm
        · exact hcab (Or.inl hh.symm)
    rw [hcard, nsmul_eq_mul]
    norm_num
  have hfac : ∑ a, ∑ b ∈ ({a} : Finset (Fin n))ᶜ,
      ∑ c ∈ ({a, b} : Finset (Fin n))ᶜ, (3 : ℚ) * seqProb w a b c =
      3 * ∑ a, ∑ b ∈ ({a} : Finset (Fin n))ᶜ,
        ∑ c ∈ ({a, b} : Finset (Fin n))ᶜ, seqProb w a b c := by
    rw [Finset.mul_sum]
    refine Finset.sum_congr rfl (fun a _ => ?_)
    rw [Finset.mul_sum]
    refine Finset.sum_congr rfl (fun b _ => ?_)
    rw [Finset.mul_sum]
  rw [hswap, hfac, seqProb_total w hw hn, mul_one]

/-- C1: under the independent method with clipped strengths, a race with
`field_size ≥ 3` has top-3 probabilities summing exactly to `3`, and a
race with `field_size < 3` assigns every entrant probability `1`. -/
theorem independent_top3_sum (n : ℕ) (raw : Fin n → ℚ) :
    (3 ≤ n → ∑ i, top3Prob (fun i => clipStrength (raw i)) i = 3) ∧
      (n < 3 → ∀ i, top3Prob (fun i => clipStrength (raw i)) i = 1) := by
  constructor
  · intro hn
    apply top3Prob_sum_of_pos _ _ hn
    intro i
    by_cases h : raw i ≤ 0
    · simp only [clipStrength, if_pos h]
      norm_num [epsVal]
    · simp only [clipStrength, if_neg h]
      exact lt_of_not_ge h
  · intro hn i
    simp [top3Prob, hn]

/-- C1 witness: a concrete three-entrant race with unit strengths. -/
theorem independent_top3_sum_witness :
    3 ≤ 3 ∧
      ∑ i, top3Prob (fun i => clipStrength ((fun _ : Fin 3 => (1:ℚ)) i)) i
        = 3 :=
  ⟨le_refl 3, (independent_top3_sum 3 (fun _ => 1)).1 (le_refl 3)⟩

/-! ### Allocator arithmetic -/

/-- Pulling a constant factor out of a mapped sum. -/
theorem sum_map_mul_left' (c : ℚ) (l : List ℚ) :
    (l.map (fun p => c * p)).sum = c * l.sum := by
  induction l with
  | nil => simp
  | cons x xs ih => simp [ih, mul_add]

/-- The floored stake never exceeds the raw stake. -/
theorem floorStake_le (q : ℚ) (h : 0 ≤ q) : ((floorStake q : ℚ)) ≤ q := by
  unfold floorStake
  have h1 : (⌊q⌋.toNat : ℤ) = ⌊q⌋ := Int.toNat_of_nonneg (Int.floor_nonneg.mpr h)
  have h3 : ((⌊q⌋.toNat : ℚ)) = ((⌊q⌋ : ℚ)) := by
    exact_mod_cast congrArg (fun z : ℤ => (z : ℚ)) h1
  rw [h3]
  exact Int.floor_le q

/-- Non-negative summands with a zero total are all zero. -/
theorem all_zero_of_sum_zero (l : List ℚ) (h : ∀ x ∈ l, 0 ≤ x)
    (h0 : l.sum = 0) : ∀ x ∈ l, x = 0 := by
  induction l with
  | nil => intro x hx; cases hx
  | cons y ys ih =>
    have hy : 0 ≤ y := h y (List.mem_cons_self y ys)
    have hys : 0 ≤ ys.sum :=
      List.sum_nonneg (fun x hx => h x (List.mem_cons_of_mem y hx))
    rw [List.sum_cons] at h0
    have hy0 : y = 0 := by linarith
    have hys0 : ys.sum = 0 := by linarith
    intro x hx
    rcases List.mem_cons.mp hx with rfl | hx
    · exact hy0
    · exact ih (fun x hx => h x (List.mem_cons_of_mem y hx)) hys0 x hx

/-- Raw stakes are non-negative when ticket probabilities are. -/
theorem rawStakes_nonneg (B : ℕ) (policy : String) (probs : List ℚ)
    (h : ∀ q ∈ probs, 0 ≤ q) : ∀ q ∈ rawStakes B policy probs, 0 ≤ q := by
  intro q hq
  unfold rawStakes at hq
  split at hq
  · obtain ⟨p, _, rfl⟩ := List.mem_map.mp hq
    positivity
  · obtain ⟨p, hp, rfl⟩ := List.mem_map.mp hq
    have hP : 0 ≤ probs.sum := List.sum_nonneg h
    exact div_nonneg (mul_nonneg (Nat.cast_nonneg B) (h p hp)) hP

/-- The raw stakes never total more than the budget. -/
theorem rawStakes_sum_le (B : ℕ) (policy : String) (probs : List ℚ)
    (h : ∀ q ∈ probs, 0 ≤ q) :
    (rawStakes B policy probs).sum ≤ (B : ℚ) := by
  unfold rawStakes
  split
  · rw [List.map_const', List.sum_replicate]
    by_cases hn : probs.length = 0
    · simp [hn]
    · have hne : ((probs.length : ℚ)) ≠ 0 := Nat.cast_ne_zero.mpr hn
      rw [nsmul_eq_mul, mul_comm, div_mul_cancel₀ _ hne]
  · by_cases h0 : probs.sum = 0
    · have hz : (probs.map (fun p => (B : ℚ) * p / probs.sum)).sum = 0 := by
        apply List.sum_eq_zero
        intro x hx
        obtain ⟨p, hp, rfl⟩ := List.mem_map.mp hx
        rw [all_zero_of_sum_zero probs h h0 p hp, mul_zero, zero_div]
      rw [hz]
      exact Nat.cast_nonneg B
    · have hfp : (fun p => (B : ℚ) * p / probs.sum) =
          fun p => ((B : ℚ) / probs.sum) * p := funext (fun p => by ring)
      rw [hfp, sum_map_mul_left', div_mul_cancel₀ _ h0]

/-- The floored stakes total at most the budget. -/
theorem flooredStakes_sum_le (B : ℕ) (policy : String) (probs : List ℚ)
    (h : ∀ q ∈ probs, 0 ≤ q) :
    (flooredStakes B policy probs).sum ≤ B := by
  have hraw := rawStakes_nonneg B policy probs h
  have hcast : ((flooredStakes B policy probs).sum : ℚ) =
      ((rawStakes B policy probs).map (fun q => ((floorStake q : ℚ)))).sum := by
    unfold flooredStakes
    rw [Nat.cast_list_sum, List.map_map]
    rfl
  have hle : ((rawStakes B policy probs).map
      (fun q => ((floorStake q : ℚ)))).sum ≤
      ((rawStakes B policy probs).map id).sum :=
    List.sum_le_sum (fun q hq => floorStake_le q (hraw q hq))
  rw [List.map_id] at hle
  have := le_trans (hcast ▸ hle) (rawStakes_sum_le B policy probs h)
  exact_mod_cast this

/-- Adding `r` at a valid index adds `r` to the total. -/
theorem sum_set_add (l : List ℕ) (i r : ℕ) (h : i < l.length) :
    (l.set i (l.getD i 0 + r)).sum = l.sum + r := by
  induction l generalizing i with
  | nil => cases h
  | cons x xs ih =>
    cases i with
    | zero => simp [List.sum_cons]; omega
    | succ j =>
      have hj : j < xs.length := Nat.lt_of_succ_lt_succ h
      have hset : (x :: xs).set (j + 1) ((x :: xs).getD (j + 1) 0 + r) =
          x :: xs.set j (xs.getD j 0 + r) := rfl
      rw [hset, List.sum_cons, List.sum_cons, ih j hj]
      omega

/-- The first-maximum index is always in range for non-empty lists. -/
theorem idxOfMax_lt (probs : List ℚ) (h : probs ≠ []) :
    idxOfMax probs < probs.length := by
  induction probs with
  | nil => exact absurd rfl h
  | cons p rest ih =>
    cases rest with
    | nil => simp [idxOfMax]
    | cons q rs =>
      have hlt := ih (by simp)
      simp only [idxOfMax]
      split
      · simpa using Nat.succ_lt_succ hlt
      · simp

/-- The raw-stake list is as long as the probability list. -/
theorem rawStakes_length (B : ℕ) (policy : String) (probs : List ℚ) :
    (rawStakes B policy probs).length = probs.length := by
  unfold rawStakes
  split <;> rw [List.length_map]

/-- The allocation has one stake per ticket. -/
theorem allocate_length (B : ℕ) (policy : String) (probs : List ℚ) :
    (allocate B policy probs).length = probs.length := by
  unfold allocate
  split
  · rename_i he
    rw [List.isEmpty_iff.mp he]
    rfl
  · rw [List.length_set]
    unfold flooredStakes
    rw [List.length_map, rawStakes_length]

/-- The allocation never exceeds the budget and, when at least one ticket
exists, spends it exactly (the flooring remainder is reassigned, not
discarded). -/
theorem allocate_sum (B : ℕ) (policy : String) (probs : List ℚ)
    (h : ∀ q ∈ probs, 0 ≤ q) :
    (allocate B policy probs).sum ≤ B ∧
      (probs ≠ [] → (allocate B policy probs).sum = B) := by
  unfold allocate
  by_cases he : probs.isEmpty
  · rw [if_pos he]
    refine ⟨Nat.zero_le B, fun hne => absurd (List.isEmpty_iff.mp he) hne⟩
  · rw [if_neg he]
    have hne : probs ≠ [] := by
      intro hh
      rw [hh] at he
      exact he rfl
    have hfl : (flooredStakes B policy probs).sum ≤ B :=
      flooredStakes_sum_le B policy probs h
    have hidx : idxOfMax probs < (flooredStakes B policy probs).length := by
      unfold flooredStakes
      rw [List.length_map, rawStakes_length]
      exact idxOfMax_lt probs hne
    rw [sum_set_add _ _ _ hidx]
    exact ⟨by omega, fun _ => by omega⟩

/-- Removing one element is a permutation-respecting operation. -/
theorem picks_perm {α : Type} (l : List α) (p : α × List α)
    (hp : p ∈ picks l) : l.Perm (p.1 :: p.2) := by
  induction l generalizing p with
  | nil => simp [picks] at hp
  | cons x xs ih =>
    simp only [picks, List.mem_cons, List.mem_map] at hp
    rcases hp with rfl | ⟨q, hq, rfl⟩
    · exact List.Perm.refl _
    · exact ((ih q hq).cons x).trans (List.Perm.swap q.1 x q.2)

/-- Insertion keeps exactly the inserted element and the old ones. -/
theorem mem_insertSorted {α : Type} (le : α → α → Bool) (x a : α)
    (l : List α) : a ∈ insertSorted le x l ↔ a = x ∨ a ∈ l := by
  induction l with
  | nil => simp [insertSorted]
  | cons y ys ih =>
    unfold insertSorted
    split
    · simp
    · simp [ih]
      tauto

/-- Sorting preserves membership. -/
theorem mem_sortBy {α : Type} (le : α → α → Bool) (a : α) (l : List α) :
    a ∈ sortBy le l ↔ a ∈ l := by
  induction l with
  | nil => simp [sortBy]
  | cons x xs ih =>
    unfold sortBy
    rw [mem_insertSorted, ih]
    simp

/-- The probability mass of a race's prediction set is non-negative. -/
theorem sumProbs_nonneg (entries : List LanePred)
    (h : ∀ e ∈ entries, 0 ≤ e.prob) : 0 ≤ sumProbs entries := by
  apply List.sum_nonneg
  intro x hx
  obtain ⟨e, he, rfl⟩ := List.mem_map.mp hx
  exact h e he

/-- Every candidate combination has a non-negative joint probability. -/
theorem tripleCandidates_prob_nonneg (rid : String)
    (entries : List LanePred) (h : ∀ e ∈ entries, 0 ≤ e.prob) :
    ∀ t ∈ tripleCandidates rid entries, 0 ≤ t.prob := by
  intro t ht
  unfold tripleCandidates at ht
  rw [List.mem_flatten] at ht
  obtain ⟨l1, hl1, ht⟩ := ht
  rw [List.mem_map] at hl1
  obtain ⟨pa, hpa, rfl⟩ := hl1
  rw [List.mem_flatten] at ht
  obtain ⟨l2, hl2, ht⟩ := ht
  rw [List.mem_map] at hl2
  obtain ⟨pb, hpb, rfl⟩ := hl2
  rw [List.mem_map] at ht
  obtain ⟨c, hc, rfl⟩ := ht
  have hpermA := picks_perm entries pa hpa
  have hpermB := picks_perm pa.2 pb hpb
  have hsubA : ∀ e ∈ pa.2, 0 ≤ e.prob := fun e he =>
    h e (hpermA.mem_iff.mpr (List.mem_cons_of_mem _ he))
  have hsubB : ∀ e ∈ pb.2, 0 ≤ e.prob := fun e he =>
    hsubA e (hpermB.mem_iff.mpr (List.mem_cons_of_mem _ he))
  have hSA : sumProbs entries = pa.1.prob + sumProbs pa.2 := by
    unfold sumProbs
    rw [List.Perm.sum_eq (hpermA.map (·.prob))]
    simp
  have hSB : sumProbs pa.2 = pb.1.prob + sumProbs pb.2 := by
    unfold sumProbs
    rw [List.Perm.sum_eq (hpermB.map (·.prob))]
    simp
  have hnnS : 0 ≤ sumProbs entries := sumProbs_nonneg entries h
  have h1 : 0 ≤ sumProbs entries - pa.1.prob := by
    have := sumProbs_nonneg pa.2 hsubA
    rw [hSA]
    linarith
  have h2 : 0 ≤ sumProbs entries - pa.1.prob - pb.1.prob := by
    have := sumProbs_nonneg pb.2 hsubB
    rw [hSA, hSB]
    linarith
  have hpA : 0 ≤ pa.1.prob :=
    h _ (hpermA.mem_iff.mpr (List.mem_cons_self _ _))
  have hpB : 0 ≤ pb.1.prob :=
    hsubA _ (hpermB.mem_iff.mpr (List.mem_cons_self _ _))
  have hpC : 0 ≤ c.prob := hsubB c hc
  show 0 ≤ jointProb entries pa.1 pb.1 c
  unfold jointProb
  exact mul_nonneg (mul_nonneg (div_nonneg hpA hnnS) (div_nonneg hpB h1))
    (div_nonneg hpC h2)

/-- Every generated ticket has a non-negative probability. -/
theorem raceTickets_prob_nonneg (cfg : ThresholdConfig) (maxPoints : ℕ)
    (zoneFilter : String) (r : RacePred)
    (h : ∀ e ∈ r.entries, 0 ≤ e.prob) :
    ∀ t ∈ raceTickets cfg maxPoints zoneFilter r, 0 ≤ t.prob := by
  intro t ht
  unfold raceTickets at ht
  split at ht
  · cases ht
  · split at ht
    · have h1 : t ∈ sortBy ticketOrd (tripleCandidates r.race_id r.entries) :=
        List.take_subset _ _ ht
      exact tripleCandidates_prob_nonneg _ _ h t ((mem_sortBy _ _ _).mp h1)
    · cases ht

/-- The per-row budgets of `buildRows` total the allocated stakes. -/
theorem buildRows_budget_sum (plans : List RacePlan) (stakes : List ℕ)
    (h : stakes.length = (plans.map (fun pl => pl.tickets.length)).sum) :
    totalStake (buildRows plans stakes) = stakes.sum := by
  induction plans generalizing stakes with
  | nil =>
    have hnil : stakes = [] := List.eq_nil_of_length_eq_zero (by simpa using h)
    simp [hnil, buildRows, totalStake]
  | cons pl rest ih =>
    have hcons : totalStake (buildRows (pl :: rest) stakes) =
        (stakes.take pl.tickets.length).sum +
          totalStake (buildRows rest (stakes.drop pl.tickets.length)) := by
      simp [buildRows, totalStake]
    have hdrop : (stakes.drop pl.tickets.length).length =
        (rest.map (fun pl => pl.tickets.length)).sum := by
      rw [List.length_drop, h]
      simp
    rw [hcons, ih _ hdrop, List.sum_take_add_sum_drop]

/-- C2: for any allocation run with a positive budget, any bet policy,
`max_points`, `zone_filter` and prediction set, the total stake across
all returned BetRows never exceeds the budget, and when at least one
ticket exists the budget is spent exactly (the flooring remainder is
added to the single highest-probability ticket, never discarded, so the
unallocated remainder is `0 <` one stake unit). -/
theorem suggest_bets_budget (races : List RacePred) (cfg : ThresholdConfig)
    (B : ℕ) (policy : String) (maxPoints : ℕ) (zoneFilter : String)
    (hB : 0 < B)
    (hpred : ∀ r ∈ races, ∀ e ∈ r.entries, 0 ≤ e.prob) :
    totalStake (suggest_bets races cfg B policy maxPoints zoneFilter) ≤ B ∧
      (suggest_bets races cfg B policy maxPoints zoneFilter ≠ [] →
        totalStake (suggest_bets races cfg B policy maxPoints zoneFilter)
          = B) := by
  have hnn : ∀ q ∈ (runTickets races cfg maxPoints zoneFilter).map (·.prob),
      0 ≤ q := by
    intro q hq
    obtain ⟨t, ht, rfl⟩ := List.mem_map.mp hq
    unfold runTickets at ht
    rw [List.mem_flatten] at ht
    obtain ⟨l, hl, ht⟩ := ht
    rw [List.mem_map] at hl
    obtain ⟨pl, hpl, rfl⟩ := hl
    unfold qualifyingPlans at hpl
    have hpl2 := List.mem_of_mem_filter hpl
    rw [List.mem_map] at hpl2
    obtain ⟨r, hr, rfl⟩ := hpl2
    exact raceTickets_prob_nonneg cfg maxPoints zoneFilter r (hpred r hr) t ht
  have hlen : (allocate B policy
      ((runTickets races cfg maxPoints zoneFilter).map (·.prob))).length =
      ((qualifyingPlans races cfg maxPoints zoneFilter).map
        (fun pl => pl.tickets.length)).sum := by
    rw [allocate_length, List.length_map]
    unfold runTickets
    rw [List.length_flatten, List.map_map]
    rfl
  have hrows := buildRows_budget_sum
    (qualifyingPlans races cfg maxPoints zoneFilter) _ hlen
  have hsum := allocate_sum B policy
    ((runTickets races cfg maxPoints zoneFilter).map (·.prob)) hnn
  constructor
  · show totalStake (buildRows _ _) ≤ B
    rw [hrows]
    exact hsum.1
  · intro hne
    have hplne : qualifyingPlans races cfg maxPoints zoneFilter ≠ [] := by
      intro hh
      apply hne
      show buildRows _ _ = []
      rw [hh]
      rfl
    obtain ⟨pl, rest, hconsq⟩ := List.exists_cons_of_ne_nil hplne
    have hne2 : pl.tickets ≠ [] := by
      have hmem : pl ∈ qualifyingPlans races cfg maxPoints zoneFilter := by
        rw [hconsq]
        exact List.mem_cons_self pl rest
      unfold qualifyingPlans at hmem
      have := List.of_mem_filter hmem
      simpa [List.isEmpty_iff] using this
    have hprobs : (runTickets races cfg maxPoints zoneFilter).map (·.prob)
        ≠ [] := by
      intro h0
      have hrt : runTickets races cfg maxPoints zoneFilter = [] :=
        List.map_eq_nil_iff.mp h0
      unfold runTickets at hrt
      rw [hconsq] at hrt
      simp only [List.map_cons, List.flatten_cons] at hrt
      exact hne2 (List.append_eq_nil.mp hrt).1
    show totalStake (buildRows _ _) = B
    rw [hrows]
    exact hsum.2 hprobs

/-- C2 witness: a concrete single-race flat allocation of 1000 units. -/
theorem suggest_bets_budget_witness :
    0 < 1000 ∧
      totalStake (suggest_bets [exampleRace] defaultThresholds 1000 "flat"
        1 "any") ≤ 1000 :=
  ⟨by decide,
    (suggest_bets_budget [exampleRace] defaultThresholds 1000 "flat" 1 "any"
      (by decide)
      (by
        intro r hr e he
        rw [List.mem_singleton] at hr
        subst hr
        unfold exampleRace at he
        rcases List.mem_cons.mp he with rfl | he
        · norm_num
        · rcases List.mem_cons.mp he with rfl | he
          · norm_num
          · rw [List.mem_singleton] at he
            subst he
            norm_num)).1⟩

/-! ### Chariloto day-page parsing -/

/-- A filterMap that keeps exactly the rows passing `p` has one output per
surviving row. -/
theorem length_filterMap_keep {α β : Type} (l : List α) (p : α → Bool)
    (g : α → β) :
    (l.filterMap (fun a => if p a then some (g a) else none)).length =
      (l.filter p).length := by
  induction l with
  | nil => rfl
  | cons x xs ih =>
    by_cases hx : p x <;>
      simp [List.filterMap_cons, List.filter_cons, hx, ih]

/-- Such a filterMap is non-empty iff some row passes `p`. -/
theorem filterMap_keep_ne_nil {α β : Type} (l : List α) (p : α → Bool)
    (g : α → β) :
    l.filterMap (fun a => if p a then some (g a) else none) ≠ [] ↔
      l.any p = true := by
  induction l with
  | nil => simp
  | cons x xs ih =>
    by_cases hx : p x <;> simp [List.filterMap_cons, hx, ih]

/-- Updating with keys other than `k` leaves `k`'s binding unchanged. -/
theorem dictUpdate_get_of_not_mem (b u : Dict) (k : String)
    (h : k ∉ dictKeys u) : alistGet? (dictUpdate b u) k = alistGet? b k := by
  induction u generalizing b with
  | nil => rfl
  | cons p rest ih =>
    have h2 : ¬ (k = p.1 ∨ k ∈ dictKeys rest) := by
      intro hor
      exact h (List.mem_cons.mpr hor : k ∈ p.1 :: dictKeys rest)
    have hk : ¬ k = p.1 := fun hh => h2 (Or.inl hh)
    have hrest : k ∉ dictKeys rest := fun hh => h2 (Or.inr hh)
    have hstep : dictUpdate b (p :: rest) =
        dictUpdate (alistSet b p.1 p.2) rest := rfl
    rw [hstep, ih _ hrest, alistGet?_set_other _ _ _ _ hk]

/-- The keys an optional-column assignment can write. -/
theorem colUpd_fst (cols : List String) (row : List (Option String))
    (oc : Option String) (key : String) :
    ∀ p ∈ colUpd cols row oc key, p.1 = key := by
  cases oc <;> simp [colUpd]

/-- Same for the `or "0"` variant. -/
theorem colUpdD0_fst (cols : List String) (row : List (Option String))
    (oc : Option String) (key : String) :
    ∀ p ∈ colUpdD0 cols row oc key, p.1 = key := by
  cases oc <;> simp [colUpdD0]

/-- The winning-technique flags only write `kimarite_*` keys. -/
theorem kimariteUpds_subset (technique fv : String) :
    kimariteUpds technique fv ⊆
      [("kimarite_nige", "1"), ("kimarite_makuri", "1"),
       ("kimarite_sashi", "1"), ("kimarite_mark", "1")] := by
  unfold kimariteUpds
  split_ifs <;> intro p hp <;> simp at hp ⊢ <;> tauto

/-- The line assignment only writes `line_id` and `line_pos`. -/
theorem lineUpds_fst (lineMap : LineMap) (lv : String) :
    ∀ p ∈ lineUpds lineMap lv, p.1 = "line_id" ∨ p.1 = "line_pos" := by
  cases h : alistGet? lineMap lv <;> simp [lineUpds, h]

/-- No per-row assignment touches `race_id`. -/
theorem entryUpdates_fst_ne (cols : List String)
    (row : List (Option String)) (lineMap : LineMap) (fv lv : String) :
    ∀ p ∈ entryUpdates cols row lineMap fv lv, p.1 ≠ "race_id" := by
  unfold entryUpdates
  simp only [List.forall_mem_append]
  refine ⟨⟨⟨⟨⟨⟨⟨⟨⟨⟨⟨⟨?_, ?_⟩, ?_⟩, ?_⟩, ?_⟩, ?_⟩, ?_⟩, ?_⟩, ?_⟩, ?_⟩,
    ?_⟩, ?_⟩, ?_⟩
  · intro p hp
    rcases List.mem_cons.mp hp with rfl | hp
    · exact (by decide : ("lane_no" : String) ≠ "race_id")
    · rcases List.mem_cons.mp hp with rfl | hp
      · exact (by decide : ("finish_pos" : String) ≠ "race_id")
      · cases hp
  all_goals intro p hp
  · rw [colUpd_fst _ _ _ _ p hp]; decide
  · rw [colUpd_fst _ _ _ _ p hp]; decide
  · rw [colUpd_fst _ _ _ _ p hp]; decide
  · rw [colUpd_fst _ _ _ _ p hp]; decide
  · rw [colUpd_fst _ _ _ _ p hp]; decide
  · rw [colUpd_fst _ _ _ _ p hp]; decide
  · rw [colUpd_fst _ _ _ _ p hp]; decide
  · rw [colUpdD0_fst _ _ _ _ p hp]; decide
  · rw [colUpdD0_fst _ _ _ _ p hp]; decide
  · rw [colUpdD0_fst _ _ _ _ p hp]; decide
  · have := kimariteUpds_subset _ _ hp
    simp at this
    rcases this with h | h | h | h <;> rw [h] <;> decide
  · rcases lineUpds_fst _ _ p hp with h | h <;> rw [h] <;> decide

/-- Every entry dict built from a result row carries its race id. -/
theorem entry_dict_race_id (race_id date_str : String) (race_no : ℕ)
    (bank_code stadium : String) (cols : List String)
    (row : List (Option String)) (lineMap : LineMap) (fv lv : String) :
    alistGet? (dictUpdate
      (charilotoDefaults race_id date_str race_no bank_code stadium)
      (entryUpdates cols row lineMap fv lv)) "race_id" = some race_id := by
  rw [dictUpdate_get_of_not_mem]
  · simp [charilotoDefaults, alistGet?]
  · intro hmem
    unfold dictKeys at hmem
    rw [List.mem_map] at hmem
    obtain ⟨p, hp, hk⟩ := hmem
    exact entryUpdates_fst_ne cols row lineMap fv lv p hp hk

/-- `_chariloto_entries` yields nothing when a finish or lane column is
missing. -/
theorem chariloto_entries_nil (t : PTable) (rid D : String) (rno : ℕ)
    (B : String) (lineMap : LineMap) (S : String)
    (h : find_column (flatten_columns t.columns) ["着順", "着"] = none ∨
      find_column (flatten_columns t.columns) ["車番", "車号", "車"] = none) :
    chariloto_entries t rid D rno B lineMap S = [] := by
  unfold chariloto_entries
  rcases h with h | h
  · rw [h]
  · cases hfc : find_column (flatten_columns t.columns) ["着順", "着"] <;>
      rw [h]

/-- `_chariloto_entries` with both columns present is the filterMap of the
per-row builder. -/
theorem chariloto_entries_eq (t : PTable) (rid D : String) (rno : ℕ)
    (B : String) (lineMap : LineMap) (S : String) (fc lc : String)
    (hfc : find_column (flatten_columns t.columns) ["着順", "着"] = some fc)
    (hlc : find_column (flatten_columns t.columns) ["車番", "車号", "車"] =
      some lc) :
    chariloto_entries t rid D rno B lineMap S =
      t.rows.filterMap (entryOfRow (flatten_columns t.columns) rid D rno B
        S lineMap fc lc) := by
  unfold chariloto_entries
  rw [hfc, hlc]

/-- A race's entries are non-empty exactly when its table qualifies. -/
theorem chariloto_entries_ne_nil_iff (t : PTable) (rid D : String)
    (rno : ℕ) (B : String) (lineMap : LineMap) (S : String) :
    chariloto_entries t rid D rno B lineMap S ≠ [] ↔
      tableQualifies t = true := by
  unfold tableQualifies
  cases hfc : find_column (flatten_columns t.columns) ["着順", "着"] with
  | none =>
    rw [chariloto_entries_nil t rid D rno B lineMap S (Or.inl hfc)]
    simp
  | some fc =>
    cases hlc : find_column (flatten_columns t.columns)
        ["車番", "車号", "車"] with
    | none =>
      rw [chariloto_entries_nil t rid D rno B lineMap S (Or.inr hlc)]
      simp
    | some lc =>
      rw [chariloto_entries_eq t rid D rno B lineMap S fc lc hfc hlc]
      have hshape : t.rows.filterMap (entryOfRow (flatten_columns t.columns)
          rid D rno B S lineMap fc lc) =
          t.rows.filterMap (fun row =>
            if rowKeep (flatten_columns t.columns) fc lc row then
              some (dictUpdate
                (charilotoDefaults rid D rno B S)
                (entryUpdates (flatten_columns t.columns) row lineMap
                  (normalize_value (rowCell (flatten_columns t.columns) row fc))
                  (normalize_lane (normalize_value
                    (rowCell (flatten_columns t.columns) row lc)))))
            else none) := rfl
      rw [hshape, filterMap_keep_ne_nil]

/-- Each emitted entry of a race carries that race's id. -/
theorem chariloto_entries_race_id (t : PTable) (rid D : String) (rno : ℕ)
    (B : String) (lineMap : LineMap) (S : String) :
    ∀ e ∈ chariloto_entries t rid D rno B lineMap S,
      alistGet? e "race_id" = some rid := by
  intro e he
  cases hfc : find_column (flatten_columns t.columns) ["着順", "着"] with
  | none =>
    rw [chariloto_entries_nil t rid D rno B lineMap S (Or.inl hfc)] at he
    cases he
  | some fc =>
    cases hlc : find_column (flatten_columns t.columns)
        ["車番", "車号", "車"] with
    | none =>
      rw [chariloto_entries_nil t rid D rno B lineMap S (Or.inr hlc)] at he
      cases he
    | some lc =>
      rw [chariloto_entries_eq t rid D rno B lineMap S fc lc hfc hlc] at he
      obtain ⟨row, _, heq⟩ := List.mem_filterMap.mp he
      unfold entryOfRow at heq
      split at heq
      · injection heq with h'
        rw [← h']
        exact entry_dict_race_id rid D rno B S _ row lineMap _ _
      · cases heq

/-- The info row carries its race id as first field. -/
theorem infoRowFor_race_id (D B T S rid : String) (rno : ℕ)
    (lineMap : LineMap) (entries : List Dict) :
    alistGet? (infoRowFor D B T S rid rno lineMap entries) "race_id" =
      some rid := by
  simp [infoRowFor, alistGet?]

/-- The day loop's membership characterization: an info row (resp. any
entry row) for `rid` exists iff some position `j` holds `rid` and its
result table qualifies. -/
theorem parseDayLoop_mem (D B T S : String) (rts : List PTable)
    (lms : List LineMap) (ids : List String) (k : ℕ) (rid : String) :
    ((∃ d ∈ (parseDayLoop D B T S rts lms ids k).1,
        alistGet? d "race_id" = some rid) ↔
      ∃ j, ∃ hj : j < ids.length, ids.get ⟨j, hj⟩ = rid ∧
        tableQualifiesAt rts (k + j)) ∧
    ((∃ d ∈ (parseDayLoop D B T S rts lms ids k).2,
        alistGet? d "race_id" = some rid) ↔
      ∃ j, ∃ hj : j < ids.length, ids.get ⟨j, hj⟩ = rid ∧
        tableQualifiesAt rts (k + j)) := by
  induction ids generalizing k with
  | nil =>
    constructor <;> constructor
    · rintro ⟨d, hd, _⟩; cases hd
    · rintro ⟨j, hj, _⟩; exact absurd hj (Nat.not_lt_zero j)
    · rintro ⟨d, hd, _⟩; cases hd
    · rintro ⟨j, hj, _⟩; exact absurd hj (Nat.not_lt_zero j)
  | cons rid0 rest ih =>
    have hreindex : (∃ j, ∃ hj : j < (rid0 :: rest).length,
        (rid0 :: rest).get ⟨j, hj⟩ = rid ∧ tableQualifiesAt rts (k + j)) ↔
        ((rid0 = rid ∧ tableQualifiesAt rts k) ∨
          (∃ j, ∃ hj : j < rest.length, rest.get ⟨j, hj⟩ = rid ∧
            tableQualifiesAt rts (k + 1 + j))) := by
      constructor
      · rintro ⟨j, hj, hget, hq⟩
        cases j with
        | zero => exact Or.inl ⟨hget, by simpa using hq⟩
        | succ j' =>
          refine Or.inr ⟨j', Nat.lt_of_succ_lt_succ hj, hget, ?_⟩
          exact (show k + (j' + 1) = k + 1 + j' by omega) ▸ hq
      · rintro (⟨hget, hq⟩ | ⟨j, hj, hget, hq⟩)
        · exact ⟨0, Nat.succ_pos _, hget, by simpa using hq⟩
        · exact ⟨j + 1, Nat.succ_lt_succ hj, hget,
            (show k + 1 + j = k + (j + 1) by omega) ▸ hq⟩
    cases hrt : rts[k]? with
    | none =>
      have hloop : parseDayLoop D B T S rts lms (rid0 :: rest) k =
          parseDayLoop D B T S rts lms rest (k + 1) := by
        simp [parseDayLoop, hrt]
      have hq0 : ¬ tableQualifiesAt rts k := by
        rintro ⟨t, ht, _⟩
        rw [hrt] at ht
        cases ht
      rw [hloop]
      constructor
      · refine ((ih (k + 1)).1.trans ?_).trans hreindex.symm
        constructor
        · exact Or.inr
        · rintro (⟨_, hq⟩ | hr)
          · exact absurd hq hq0
          · exact hr
      · refine ((ih (k + 1)).2.trans ?_).trans hreindex.symm
        constructor
        · exact Or.inr
        · rintro (⟨_, hq⟩ | hr)
          · exact absurd hq hq0
          · exact hr
    | some t =>
      cases hent : chariloto_entries t rid0 D (raceNoOf k rid0) B
          ((lms[k]?).getD []) S with
      | nil =>
        have hloop : parseDayLoop D B T S rts lms (rid0 :: rest) k =
            parseDayLoop D B T S rts lms rest (k + 1) := by
          simp [parseDayLoop, hrt, hent]
        have hq0 : ¬ tableQualifiesAt rts k := by
          rintro ⟨t', ht', hq⟩
          rw [hrt] at ht'
          injection ht' with h'
          subst h'
          exact (chariloto_entries_ne_nil_iff t rid0 D (raceNoOf k rid0) B
            ((lms[k]?).getD []) S).mpr hq hent
        rw [hloop]
        constructor
        · refine ((ih (k + 1)).1.trans ?_).trans hreindex.symm
          constructor
          · exact Or.inr
          · rintro (⟨_, hq⟩ | hr)
            · exact absurd hq hq0
            · exact hr
        · refine ((ih (k + 1)).2.trans ?_).trans hreindex.symm
          constructor
          · exact Or.inr
          · rintro (⟨_, hq⟩ | hr)
            · exact absurd hq hq0
            · exact hr
      | cons e es =>
        have hq1 : tableQualifiesAt rts k := by
          refine ⟨t, hrt, ?_⟩
          refine (chariloto_entries_ne_nil_iff t rid0 D (raceNoOf k rid0) B
            ((lms[k]?).getD []) S).mp ?_
          rw [hent]
          simp
        have hloop : parseDayLoop D B T S rts lms (rid0 :: rest) k =
            (infoRowFor D B T S rid0 (raceNoOf k rid0) ((lms[k]?).getD [])
                (e :: es) ::
              (parseDayLoop D B T S rts lms rest (k + 1)).1,
              (e :: es) ++
                (parseDayLoop D B T S rts lms rest (k + 1)).2) := by
          simp [parseDayLoop, hrt, hent]
        rw [hloop]
        constructor
        · rw [hreindex]
          constructor
          · rintro ⟨d, hd, hdid⟩
            rcases List.mem_cons.mp hd with rfl | hd
            · rw [infoRowFor_race_id] at hdid
              injection hdid with h'
              exact Or.inl ⟨h', hq1⟩
            · exact Or.inr ((ih (k + 1)).1.mp ⟨d, hd, hdid⟩)
          · rintro (⟨hre, hq⟩ | hr)
            · refine ⟨infoRowFor D B T S rid0 (raceNoOf k rid0)
                ((lms[k]?).getD []) (e :: es), List.mem_cons_self _ _, ?_⟩
              rw [infoRowFor_race_id, hre]
            · obtain ⟨d, hd, hdid⟩ := (ih (k + 1)).1.mpr hr
              exact ⟨d, List.mem_cons_of_mem _ hd, hdid⟩
        · rw [hreindex]
          constructor
          · rintro ⟨d, hd, hdid⟩
            rcases List.mem_append.mp hd with hd | hd
            · rw [← hent] at hd
              rw [chariloto_entries_race_id t rid0 D (raceNoOf k rid0) B
                ((lms[k]?).getD []) S d hd] at hdid
              injection hdid with h'
              exact Or.inl ⟨h', hq1⟩
            · exact Or.inr ((ih (k + 1)).2.mp ⟨d, hd, hdid⟩)
          · rintro (⟨hre, hq⟩ | hr)
            · refine ⟨e, List.mem_append_left _ (List.mem_cons_self e es), ?_⟩
              have he : e ∈ chariloto_entries t rid0 D (raceNoOf k rid0) B
                  ((lms[k]?).getD []) S := by
                rw [hent]
                exact List.mem_cons_self e es
              rw [chariloto_entries_race_id t rid0 D (raceNoOf k rid0) B
                ((lms[k]?).getD []) S e he, hre]
            · obtain ⟨d, hd, hdid⟩ := (ih (k + 1)).2.mpr hr
              exact ⟨d, List.mem_append_right _ hd, hdid⟩

/-- C10: a race of a chariloto day page contributes entry rows, and an info
row, if and only if its (position-matched) result table has a
finish-position column, a lane column and at least one row with non-empty
values for both; a race failing this is silently omitted.  Within a
qualifying table exactly the rows with non-empty finish and lane values
are kept, and a table missing either column yields no entries. -/
theorem chariloto_day_contribution (D B T S : String)
    (tables : List PTable) (race_ids : List String)
    (hnodup : (sortedRaceIds race_ids).Nodup)
    (idx : ℕ) (hidx : idx < (sortedRaceIds race_ids).length) :
    ((∃ d ∈ (parse_chariloto_day_races D B T S tables race_ids).1,
        alistGet? d "race_id" =
          some ((sortedRaceIds race_ids).getD idx "")) ↔
      tableQualifiesAt (dayResultTables tables) idx) ∧
    ((∃ d ∈ (parse_chariloto_day_races D B T S tables race_ids).2,
        alistGet? d "race_id" =
          some ((sortedRaceIds race_ids).getD idx "")) ↔
      tableQualifiesAt (dayResultTables tables) idx) ∧
    (∀ (t : PTable) (rid : String) (rno : ℕ) (lineMap : LineMap)
        (fc lc : String),
      find_column (flatten_columns t.columns) ["着順", "着"] = some fc →
      find_column (flatten_columns t.columns) ["車番", "車号", "車"] = some lc →
      (chariloto_entries t rid D rno B lineMap S).length =
        (t.rows.filter (rowKeep (flatten_columns t.columns) fc lc)).length) ∧
    (∀ (t : PTable) (rid : String) (rno : ℕ) (lineMap : LineMap),
      (find_column (flatten_columns t.columns) ["着順", "着"] = none ∨
        find_column (flatten_columns t.columns) ["車番", "車号", "車"] = none) →
      chariloto_entries t rid D rno B lineMap S = []) := by
  have hget : (sortedRaceIds race_ids).getD idx "" =
      (sortedRaceIds race_ids).get ⟨idx, hidx⟩ := by
    rw [List.getD_eq_getElem _ _ hidx, List.get_eq_getElem]
  have hloop := parseDayLoop_mem D B T S (dayResultTables tables)
    (dayLineMaps tables) (sortedRaceIds race_ids) 0
    ((sortedRaceIds race_ids).get ⟨idx, hidx⟩)
  have hiff : (∃ j, ∃ hj : j < (sortedRaceIds race_ids).length,
      (sortedRaceIds race_ids).get ⟨j, hj⟩ =
        (sortedRaceIds race_ids).get ⟨idx, hidx⟩ ∧
      tableQualifiesAt (dayResultTables tables) (0 + j)) ↔
      tableQualifiesAt (dayResultTables tables) idx := by
    constructor
    · rintro ⟨j, hj, hgetj, hq⟩
      have hji : (⟨j, hj⟩ : Fin (sortedRaceIds race_ids).length) =
          ⟨idx, hidx⟩ := (List.Nodup.get_inj_iff hnodup).mp hgetj
      have hj' : j = idx := congrArg Fin.val hji
      subst hj'
      simpa using hq
    · intro hq
      exact ⟨idx, hidx, rfl, by simpa using hq⟩
  refine ⟨?_, ?_, ?_, ?_⟩
  · rw [hget]
    exact hloop.1.trans hiff
  · rw [hget]
    exact hloop.2.trans hiff
  · intro t rid rno lineMap fc lc hfc hlc
    rw [chariloto_entries_eq t rid D rno B lineMap S fc lc hfc hlc]
    have hshape : t.rows.filterMap (entryOfRow (flatten_columns t.columns)
        rid D rno B S lineMap fc lc) =
        t.rows.filterMap (fun row =>
          if rowKeep (flatten_columns t.columns) fc lc row then
            some (dictUpdate
              (charilotoDefaults rid D rno B S)
              (entryUpdates (flatten_columns t.columns) row lineMap
                (normalize_value (rowCell (flatten_columns t.columns) row fc))
                (normalize_lane (normalize_value
                  (rowCell (flatten_columns t.columns) row lc)))))
          else none) := rfl
    rw [hshape]
    exact length_filterMap_keep _ _ _
  · intro t rid rno lineMap h
    exact chariloto_entries_nil t rid D rno B lineMap S h

/-- C4: two pipeline runs with identical inputs and the same seed produce
identical Predictions, BetRows and BacktestResults, whatever the ambient
random state is in either run — the Monte Carlo sampling inside
`predictRaces`/`backtestPure` threads only the explicitly passed seeded
generator, and no stage reads or advances the ambient `World` source. -/
theorem pipeline_deterministic (method : String) (seed iters : ℕ)
    (races : List (String × List (ℕ × ℚ))) (preds : List RacePred)
    (hist : List HistRace) (cfg : ThresholdConfig) (B : ℕ)
    (policy : String) (maxPoints : ℕ) (zoneFilter : String)
    (w₁ w₂ : World) :
    (runPredict method seed iters races w₁).1 =
        (runPredict method seed iters races w₂).1 ∧
      (runPredict method seed iters races w₁).2 = w₁ ∧
      (runSuggestBets preds cfg B policy maxPoints zoneFilter w₁).1 =
        (runSuggestBets preds cfg B policy maxPoints zoneFilter w₂).1 ∧
      (runSuggestBets preds cfg B policy maxPoints zoneFilter w₁).2 = w₁ ∧
      (runBacktest hist cfg B policy maxPoints zoneFilter method seed iters
          w₁).1 =
        (runBacktest hist cfg B policy maxPoints zoneFilter method seed iters
          w₂).1 ∧
      (runBacktest hist cfg B policy maxPoints zoneFilter method seed iters
          w₁).2 = w₁ :=
  ⟨rfl, rfl, rfl, rfl, rfl, rfl⟩

/-- C10 witness: the day-contribution theorem applied to a concrete one-race
day page. -/
theorem chariloto_day_contribution_witness :
    (sortedRaceIds exampleDayIds).Nodup ∧
      0 < (sortedRaceIds exampleDayIds).length ∧
      ((∃ d ∈ (parse_chariloto_day_races "2025-02-03" "01" "t" "松戸"
          exampleDayTables exampleDayIds).1,
        alistGet? d "race_id" = some ((sortedRaceIds exampleDayIds).getD 0 ""))
        ↔ tableQualifiesAt (dayResultTables exampleDayTables) 0) :=
  ⟨by decide, by decide,
    (chariloto_day_contribution "2025-02-03" "01" "t" "松戸" exampleDayTables
      exampleDayIds (by decide) 0 (by decide)).1⟩

end Keirin
